import Mathlib

/-!
Shallow embedding of the entity/component/tag registry implemented in
`Source/Engine/ECS/entity.h` (namespace `MetaEngine::ECS`).

Modelling conventions:
* Component kinds and tag kinds are natural-number indices.  A registry with
  `nComp` component kinds and `nTag` tag kinds uses indices `0 .. nComp-1`
  for components and `nComp .. nComp+nTag-1` for tags, matching the bit
  positions of `meta::type_bitset<typelist<Components..., Tags...>>`.
* A `type_bitset` value is modelled as a `Finset ℕ` of the set bit positions;
  bitwise AND / OR / equality become `∩` / `∪` / `=`.
* `flat_set` / `flat_map` (sorted vector containers from the missing
  `container.h`, ordered associative containers per the spec) are modelled as
  strictly key-sorted lists; `find` is modelled as lookup by key, which on a
  key-sorted list is observationally the same as the binary search a flat
  container performs.
* Component values are modelled as `Nat` (the claims only inspect identity of
  stored values, never their structure); a component constructor call is
  modelled by the value it constructs.
* The optional event sink is a boolean flag; every operation returns the list
  of events it broadcasts, in broadcast order.
* Each mutating operation returns an `OpOut`: the call result (`Except` for
  the two error codes raised via `report_error`), the post state, the
  caller's handle after the call (the C++ code mutates the caller's
  `entity` argument through `add_bit`/`remove_bit`/`sync`), and the events.
-/

namespace ECS

/-- `error_code` from exception.h as used by `report_error`. -/
inductive error_code where
  | BAD_ENTITY
  | INVALID_COMPONENT
deriving DecidableEq, Repr

/-- `entity_status`. -/
inductive entity_status where
  | UNINITIALIZED
  | DELETED
  | STALE
  | OK
deriving DecidableEq, Repr

/-- One record of the authoritative entity container (`flat_set<entity_t>`):
the identity plus the live `compTags` bitset.  The manager back-pointer of
`detail::entity` is implicit (one registry at a time). -/
structure EntityRec where
  id : Nat
  mask : Finset ℕ
deriving DecidableEq

/-- A caller-held entity handle: identity plus the locally cached
`compTags` snapshot. -/
structure Handle where
  id : Nat
  mask : Finset ℕ
deriving DecidableEq

/-- Events broadcast to the event sink (event.h payload carriers
`entity_created`, `entity_destroyed`, `component_added`, `component_removed`,
`tag_added`, `tag_removed`). -/
inductive Event where
  | entityCreated (id : Nat)
  | entityDestroyed (id : Nat)
  | componentAdded (id : Nat) (kind : Nat) (value : Nat)
  | componentRemoved (id : Nat) (kind : Nat) (value : Nat)
  | tagAdded (id : Nat) (kind : Nat)
  | tagRemoved (id : Nat) (kind : Nat)
deriving DecidableEq, Repr

/-- A per-kind component store (`flat_map<entity_id_t, Component>`):
a key-sorted association list from identity to stored value. -/
abbrev Store := List (Nat × Nat)

section SortedContainers

variable {α : Type} (keyf : α → Nat)

/-- Lookup by key in an ordered associative container (`find`). -/
def findByKey : List α → Nat → Option α
  | [], _ => none
  | x :: xs, i => if keyf x = i then some x else findByKey xs i

/-- Sorted insert (`emplace` / `try_emplace`): inserts before the first
strictly larger key; an element with an equal key blocks the insert and the
container is unchanged. -/
def insertByKey : List α → α → List α
  | [], a => [a]
  | x :: xs, a =>
    if keyf a < keyf x then a :: x :: xs
    else if keyf x = keyf a then x :: xs
    else x :: insertByKey xs a

/-- Erase the element with the given key (`erase`); no-op when absent. -/
def eraseByKey : List α → Nat → List α
  | [], _ => []
  | x :: xs, i => if keyf x = i then xs else x :: eraseByKey xs i

/-- Strict sortedness by key: the container invariant of a flat container. -/
abbrev KeySorted (l : List α) : Prop :=
  l.Pairwise (fun a b => keyf a < keyf b)

end SortedContainers

/-- Update (in place) the element with key `i` of an entity container:
models `meta::get<T>(ent->compTags) = b` performed on the element found
inside a `flat_set`. -/
def mapRec (l : List EntityRec) (i : Nat) (f : Finset ℕ → Finset ℕ) :
    List EntityRec :=
  l.map fun r => if r.id = i then ⟨r.id, f r.mask⟩ else r

/-- `flat_set<entity_t>` built from a vector (`entity_container{vec}`):
sorted insertion of every element. -/
def toFlatSet (l : List EntityRec) : List EntityRec :=
  l.foldl (fun acc r => insertByKey EntityRec.id acc r) []

/-- The registry state: `entity_manager<component_list<...>, tag_list<...>>`.
`nComp`/`nTag` record the sizes of the two template kind lists. -/
structure State where
  nComp : Nat
  nTag : Nat
  currentEntityId : Nat
  components : List Store
  entities : List EntityRec
  maxLinearSearchDistance : Nat
  hasEventManager : Bool
  currentGroupingId : Nat
  groupings : List (Nat × Finset ℕ × List EntityRec)

/-- The per-kind store of kind `k` inside the `components` tuple. -/
def getStore (s : State) (k : Nat) : Store := s.components.getD k []

/-- Replace the per-kind store of kind `k`. -/
def setStore (s : State) (k : Nat) (st : Store) : State :=
  { s with components := s.components.set k st }

/-- The `entity_manager` constructor: zero state plus the implicit
single-kind groupings `0 .. CompTagCount-1` installed by
`detail::initialize_groupings`, and `currentGroupingId = CompTagCount`,
`maxLinearSearchDistance = 64`. -/
def init (nComp nTag : Nat) : State :=
  { nComp := nComp
    nTag := nTag
    currentEntityId := 0
    components := List.replicate nComp []
    entities := []
    maxLinearSearchDistance := 64
    hasEventManager := false
    currentGroupingId := nComp + nTag
    groupings := (List.range (nComp + nTag)).map fun k => (k, {k}, []) }

/-- Result of one registry call: the returned value or raised `error_code`,
the post state, the caller's handle after the call, and the events
broadcast (in order). -/
structure OpOut (α : Type) where
  res : Except error_code α
  st : State
  hnd : Handle
  evs : List Event

/-- `get_entity_and_status`: find the authoritative record by identity;
absent ⇒ `DELETED`; cached mask differs from the live mask ⇒ `STALE`;
otherwise `OK`. -/
def get_entity_and_status (s : State) (h : Handle) :
    Option EntityRec × entity_status :=
  match findByKey EntityRec.id s.entities h.id with
  | none => (none, entity_status.DELETED)
  | some r =>
    if h.mask ≠ r.mask then (some r, entity_status.STALE)
    else (some r, entity_status.OK)

/-- `assert_entity` (debug build): returns the authoritative record when the
status is `OK`, otherwise reports `BAD_ENTITY`. -/
def assert_entity (s : State) (h : Handle) : Except error_code EntityRec :=
  match get_entity_and_status s h with
  | (_, entity_status.DELETED) => Except.error error_code.BAD_ENTITY
  | (_, entity_status.STALE) => Except.error error_code.BAD_ENTITY
  | (some r, entity_status.OK) => Except.ok r
  | (_, _) => Except.error error_code.BAD_ENTITY

/-- `add_bit<T>`: set bit `k` on the authoritative record (`local`) and on
the caller's handle (`foreign`), then update every grouping: insert when the
entity newly matches, refresh the snapshot's cached mask when it already
matched. `prevBits` is the record's mask before the transition. -/
def add_bit (s : State) (h : Handle) (k : Nat) : State × Handle :=
  match findByKey EntityRec.id s.entities h.id with
  | none => (s, h)
  | some localEnt =>
    let prevBits := localEnt.mask
    let groupings2 := s.groupings.map fun g =>
      let wasInGrouping := g.2.1 ∩ prevBits = g.2.1
      let enteredGrouping := g.2.1 ∩ (prevBits ∪ {k}) = g.2.1
      if ¬wasInGrouping ∧ enteredGrouping then
        (g.1, g.2.1, insertByKey EntityRec.id g.2.2 ⟨h.id, prevBits ∪ {k}⟩)
      else if wasInGrouping then
        (g.1, g.2.1, mapRec g.2.2 h.id (fun m => m ∪ {k}))
      else g
    ({ s with entities := mapRec s.entities h.id (fun m => m ∪ {k})
              groupings := groupings2 },
     ⟨h.id, h.mask ∪ {k}⟩)

/-- `remove_bit<T>`: clear bit `k` on the record and the handle, then update
every grouping: erase when the entity no longer matches, refresh the
snapshot's cached mask when it still matches.  The C++ code computes the
membership tests from `local.compTags` after the clear. -/
def remove_bit (s : State) (h : Handle) (k : Nat) : State × Handle :=
  match findByKey EntityRec.id s.entities h.id with
  | none => (s, h)
  | some localEnt =>
    let newBits := localEnt.mask.erase k
    let groupings2 := s.groupings.map fun g =>
      let inGrouping := g.2.1 ∩ newBits = g.2.1
      let wasInGrouping := g.2.1 ∩ (newBits ∪ {k}) = g.2.1
      if ¬inGrouping ∧ wasInGrouping then
        (g.1, g.2.1, eraseByKey EntityRec.id g.2.2 h.id)
      else if inGrouping then
        (g.1, g.2.1, mapRec g.2.2 h.id (fun m => m.erase k))
      else g
    ({ s with entities := mapRec s.entities h.id (fun m => m.erase k)
              groupings := groupings2 },
     ⟨h.id, h.mask.erase k⟩)

/-- `add_component<Component>`: validate; if the bit is already set return
the stored value and `false` (the constructor arguments, i.e. `v`, are
ignored); otherwise `try_emplace` the value, `add_bit`, then broadcast
`component_added` when a sink is attached.  The unreachable `none` branch
mirrors the asserted-impossible missing store entry. -/
def add_component (s : State) (h : Handle) (k : Nat) (v : Nat) :
    OpOut (Nat × Bool) :=
  match assert_entity s h with
  | Except.error e => ⟨Except.error e, s, h, []⟩
  | Except.ok _ =>
    if k ∈ h.mask then
      match findByKey Prod.fst (getStore s k) h.id with
      | some comp => ⟨Except.ok (comp.2, false), s, h, []⟩
      | none => ⟨Except.ok (0, false), s, h, []⟩
    else
      let s1 := setStore s k (insertByKey Prod.fst (getStore s k) (h.id, v))
      let sh := add_bit s1 h k
      ⟨Except.ok (v, true), sh.1, sh.2,
        if s.hasEventManager then [Event.componentAdded h.id k v] else []⟩

/-- `remove_component<Component>`: validate; if the bit is unset return
`false`; otherwise broadcast `component_removed` carrying the still-present
old value, erase from the store, then `remove_bit`. -/
def remove_component (s : State) (h : Handle) (k : Nat) : OpOut Bool :=
  match assert_entity s h with
  | Except.error e => ⟨Except.error e, s, h, []⟩
  | Except.ok _ =>
    if k ∈ h.mask then
      let oldv := ((findByKey Prod.fst (getStore s k) h.id).getD (0, 0)).2
      let s1 := setStore s k (eraseByKey Prod.fst (getStore s k) h.id)
      let sh := remove_bit s1 h k
      ⟨Except.ok true, sh.1, sh.2,
        if s.hasEventManager then [Event.componentRemoved h.id k oldv] else []⟩
    else ⟨Except.ok false, s, h, []⟩

/-- `get_component<Component>` (const): validate; report
`INVALID_COMPONENT` when the bit is unset; otherwise return the stored
value.  Read path: no state change, no events. -/
def get_component (s : State) (h : Handle) (k : Nat) : OpOut Nat :=
  match assert_entity s h with
  | Except.error e => ⟨Except.error e, s, h, []⟩
  | Except.ok _ =>
    if k ∈ h.mask then
      ⟨Except.ok (((findByKey Prod.fst (getStore s k) h.id).getD (0, 0)).2),
        s, h, []⟩
    else ⟨Except.error error_code.INVALID_COMPONENT, s, h, []⟩

/-- `set_tag<Tag>`: validate; read the old value from the caller's handle;
on a transition to set, `add_bit` then broadcast `tag_added`; on a
transition to clear, broadcast `tag_removed` then `remove_bit`; otherwise
no-op.  Returns the previous value. -/
def set_tag (s : State) (h : Handle) (k : Nat) (b : Bool) : OpOut Bool :=
  match assert_entity s h with
  | Except.error e => ⟨Except.error e, s, h, []⟩
  | Except.ok _ =>
    let old : Bool := decide (k ∈ h.mask)
    if old ≠ b then
      if b then
        let sh := add_bit s h k
        ⟨Except.ok old, sh.1, sh.2,
          if s.hasEventManager then [Event.tagAdded h.id k] else []⟩
      else
        let sh := remove_bit s h k
        ⟨Except.ok old, sh.1, sh.2,
          if s.hasEventManager then [Event.tagRemoved h.id k] else []⟩
    else ⟨Except.ok old, s, h, []⟩

/-- `sync` (const member: the registry itself is untouched, only the
handle's mutable cached mask is written): `DELETED` ⇒ `false` and the handle
is unchanged; otherwise copy the live mask into the handle and return
`true`. -/
def sync (s : State) (h : Handle) : Bool × Handle :=
  match get_entity_and_status s h with
  | (_, entity_status.DELETED) => (false, h)
  | (some r, _) => (true, ⟨h.id, r.mask⟩)
  | (none, _) => (false, h)

/-- `destroy_entity`: validate; broadcast `entity_destroyed`; then walk the
component containers in tuple (kind-index) order broadcasting
`component_removed` and erasing where the bit is set; then
(Modelled from the spec for the `meta::for_each<ComponentCount>` helper of
the missing metafunctions.h: one `tag_removed` per set tag bit, in tag
order) broadcast `tag_removed` for every set tag bit; then erase from every
grouping whose mask the entity matches; finally erase from the entity set. -/
def destroy_entity (s : State) (h : Handle) : OpOut Unit :=
  match assert_entity s h with
  | Except.error e => ⟨Except.error e, s, h, []⟩
  | Except.ok _ =>
    let ev0 := if s.hasEventManager then [Event.entityDestroyed h.id] else []
    let compEvs := (List.range s.components.length).filterMap fun k =>
      if k ∈ h.mask ∧ s.hasEventManager then
        some (Event.componentRemoved h.id k
          (((findByKey Prod.fst (getStore s k) h.id).getD (0, 0)).2))
      else none
    let components2 := (List.range s.components.length).map fun k =>
      if k ∈ h.mask then eraseByKey Prod.fst (getStore s k) h.id
      else getStore s k
    let tagEvs := (List.range s.nTag).filterMap fun t =>
      if s.nComp + t ∈ h.mask ∧ s.hasEventManager then
        some (Event.tagRemoved h.id (s.nComp + t))
      else none
    let groupings2 := s.groupings.map fun g =>
      if g.2.1 ∩ h.mask = g.2.1 then (g.1, g.2.1, eraseByKey EntityRec.id g.2.2 h.id)
      else g
    ⟨Except.ok (), { s with components := components2
                            groupings := groupings2
                            entities := eraseByKey EntityRec.id s.entities h.id },
      h, ev0 ++ compEvs ++ tagEvs⟩

/-- `create_entity<Ts...>(us...)`: allocate the next identity, insert a
zero-mask record, broadcast `entity_created`, then apply `set_tags` (each
listed tag set to `true`) and `add_components` (each listed component
constructed), exactly as the individual operations would.  The static
validity/uniqueness checks of the kind lists are modelled as a guard
reporting `INVALID_COMPONENT` (the spec's error kind for static
precondition violations). -/
def create_entity (s : State) (tags : List Nat) (comps : List (Nat × Nat)) :
    OpOut Handle :=
  if (∀ t ∈ tags, s.nComp ≤ t ∧ t < s.nComp + s.nTag) ∧ tags.Nodup ∧
     (∀ c ∈ comps, c.1 < s.nComp) ∧ (comps.map Prod.fst).Nodup then
    let i := s.currentEntityId
    let s0 : State :=
      { s with currentEntityId := i + 1
               entities := insertByKey EntityRec.id s.entities ⟨i, ∅⟩ }
    let h0 : Handle := ⟨i, ∅⟩
    let ev0 := if s.hasEventManager then [Event.entityCreated i] else []
    let afterTags := tags.foldl
      (fun acc t =>
        let o := set_tag acc.1 acc.2.1 t true
        (o.st, o.hnd, acc.2.2 ++ o.evs))
      (s0, h0, ev0)
    let afterComps := comps.foldl
      (fun acc c =>
        let o := add_component acc.1 acc.2.1 c.1 c.2
        (o.st, o.hnd, acc.2.2 ++ o.evs))
      afterTags
    ⟨Except.ok afterComps.2.1, afterComps.1, afterComps.2.1, afterComps.2.2⟩
  else ⟨Except.error error_code.INVALID_COMPONENT, s, ⟨0, ∅⟩, []⟩

/-- `meta::make_key<Typelist, comp_tag_t>()`: the bitset with the bit of
every listed kind set. -/
def make_key (kinds : List Nat) : Finset ℕ := kinds.toFinset

/-- The comparator passed to `std::min_element` in
`get_smallest_container`: among groupings whose mask is a subset of the
query key compare snapshot sizes; a subset grouping compares less than a
non-subset one. -/
def smaller_candidate (key : Finset ℕ)
    (l r : Nat × Finset ℕ × List EntityRec) : Bool :=
  if l.2.1 ∩ key = l.2.1 ∧ r.2.1 ∩ key = r.2.1 then
    decide (l.2.2.length < r.2.2.length)
  else decide ((l.2.1 ∩ key = l.2.1) ∧ ¬(r.2.1 ∩ key = r.2.1))

/-- `std::min_element`: first element no later element compares less than;
`none` on an empty range. -/
def min_element {α : Type} (cmp : α → α → Bool) : List α → Option α
  | [] => none
  | x :: xs => some (xs.foldl (fun best y => if cmp y best then y else best) x)

/-- `get_smallest_container<Ts...>`: no kinds ⇒ the entity set
(encompassing); one kind ⇒ the implicit single-kind grouping stored under
grouping id = the kind's typelist index (encompassing); otherwise the
`min_element` of all groupings under `smaller_candidate`, encompassing iff
its mask equals the query key.  The `none` fallbacks are the
asserted-impossible missing-grouping cases. -/
def get_smallest_container (s : State) (kinds : List Nat) :
    List EntityRec × Bool :=
  match kinds with
  | [] => (s.entities, true)
  | [k] =>
    match findByKey Prod.fst s.groupings k with
    | some g => (g.2.2, true)
    | none => ([], true)
  | _ =>
    match min_element (smaller_candidate (make_key kinds)) s.groupings with
    | some g => (g.2.2, g.2.1 = make_key kinds)
    | none => ([], false)

/-- `get_entities<Ts...>`: take the smallest candidate container; return it
whole when encompassing, otherwise keep the candidates whose mask is a
superset of the query key. -/
def get_entities (s : State) (kinds : List Nat) : List EntityRec :=
  let c := get_smallest_container s kinds
  if c.2 then c.1
  else c.1.filter fun ent => ent.mask ∩ make_key kinds = make_key kinds

/-- `create_grouping<Ts...>`: register, under the next grouping id, the
query key paired with a `flat_set` snapshot built from `get_entities`; the
static checks (valid kinds, unique, at least two) are modelled as a guard.
Returns the new grouping's id. -/
def create_grouping (s : State) (kinds : List Nat) :
    Except error_code (State × Nat) :=
  if (∀ k ∈ kinds, k < s.nComp + s.nTag) ∧ kinds.Nodup ∧ 2 ≤ kinds.length then
    Except.ok
      ({ s with currentGroupingId := s.currentGroupingId + 1
                groupings := insertByKey Prod.fst s.groupings
                  (s.currentGroupingId, make_key kinds,
                    toFlatSet (get_entities s kinds)) },
       s.currentGroupingId)
  else Except.error error_code.INVALID_COMPONENT

/-- `destroy_grouping`: erase the grouping with the given id (called only
through an `entity_grouping` handle, whose id is one returned by
`create_grouping`, hence `≥ CompTagCount`). -/
def destroy_grouping (s : State) (gid : Nat) : State :=
  { s with groupings := eraseByKey Prod.fst s.groupings gid }

/-- `set_event_manager` / `clear_event_manager`. -/
def set_event_manager (s : State) : State := { s with hasEventManager := true }

def clear_event_manager (s : State) : State := { s with hasEventManager := false }

/-! ### The `for_each` iteration engine -/

/-- The linear advancement strategy of `for_each`'s `increment_iter`:
`while (iter.pos->first < ent.id) ++iter.pos;`.  The C++ loop relies on the
target key being present (guaranteed by the mask/store invariant); the
model additionally stops at the end of the store. -/
def linAdv (st : Store) (target : Nat) (pos : Nat) : Nat :=
  if hp : pos < st.length then
    if (st.get ⟨pos, hp⟩).1 < target then linAdv st target (pos + 1) else pos
  else pos
termination_by st.length - pos
decreasing_by simp_wf; omega

/-- The binary-search strategy: `std::lower_bound(iter.pos, iter.end, ent.id,
key-less-than)` in its standard halving implementation, searching the range
`[pos, pos + count)`. -/
def lbAdv (st : Store) (target : Nat) (pos : Nat) (count : Nat) : Nat :=
  if count = 0 then pos
  else
    let step := count / 2
    if (st.getD (pos + step) (0, 0)).1 < target then
      lbAdv st target (pos + step + 1) (count - step - 1)
    else lbAdv st target pos step
termination_by count
decreasing_by all_goals simp_wf; omega

/-- One `increment_iter` call: advance the iterator at index `pos` of the
store to the candidate identity `target` with the per-query strategy. -/
def advance (st : Store) (useLinear : Bool) (target : Nat) (pos : Nat) : Nat :=
  if useLinear then linAdv st target pos
  else lbAdv st target pos (st.length - pos)

/-- Iterator state of one queried component kind: the kind, the current
position into its store, and the strategy chosen once per query
(`data_t`). -/
structure IterData where
  kind : Nat
  pos : Nat
  useLinear : Bool
deriving DecidableEq, Repr

/-- The candidate loop of `for_each`: skip a candidate when the container
is partial and the candidate's mask does not cover the key; otherwise
advance every iterator to the candidate and invoke the callback with the
stored values.  The invocation sequence (entity, values in queried
component order) is returned. -/
def for_each_loop (s : State) (key : Finset ℕ) (encompassing : Bool) :
    List IterData → List EntityRec → List (EntityRec × List Nat)
  | _, [] => []
  | iters, ent :: rest =>
    if ¬encompassing ∧ ¬(ent.mask ∩ key = key) then
      for_each_loop s key encompassing iters rest
    else
      let iters2 := iters.map fun it =>
        ⟨it.kind, advance (getStore s it.kind) it.useLinear ent.id it.pos,
          it.useLinear⟩
      (ent, iters2.map fun it => ((getStore s it.kind).getD it.pos (0, 0)).2) ::
        for_each_loop s key encompassing iters2 rest

/-- `detail::make_iters` with an arbitrary strategy assignment `σ` per
kind: used to state that the two advancement strategies are
interchangeable. -/
def make_iters_with (σ : Nat → Bool) (kinds : List Nat) : List IterData :=
  kinds.map fun k => ⟨k, 0, σ k⟩

/-- `detail::make_iters`: one iterator per queried component kind, starting
at the store's begin, with `useLinear` decided by comparing the store-size /
candidate-size ratio against `maxLinearSearchDistance`. -/
def make_iters (s : State) (containerSize : Nat) (kinds : List Nat) :
    List IterData :=
  make_iters_with
    (fun k => decide ((getStore s k).length / containerSize <
      s.maxLinearSearchDistance)) kinds

/-- `for_each<Ts...>(func)` with an explicit per-kind strategy assignment:
smallest candidate container, early exit when empty, iterators over the
component part of the query (tags only filter), then the candidate loop.
Returns the callback invocation sequence. -/
def for_each_with (σ : Nat → Bool) (s : State) (kinds : List Nat) :
    List (EntityRec × List Nat) :=
  let c := get_smallest_container s kinds
  if c.1.length = 0 then []
  else
    for_each_loop s (make_key kinds) c.2
      (make_iters_with σ (kinds.filter fun k => k < s.nComp)) c.1

/-- `for_each<Ts...>(func)` proper: the strategy of each iterator is the
ratio test of `detail::make_iters`. -/
def for_each (s : State) (kinds : List Nat) : List (EntityRec × List Nat) :=
  let c := get_smallest_container s kinds
  if c.1.length = 0 then []
  else
    for_each_loop s (make_key kinds) c.2
      (make_iters s c.1.length (kinds.filter fun k => k < s.nComp)) c.1

/-! ### Reachability -/

/-- One registry mutation, with the static (compile-time) constraints of
the C++ interface as side conditions: component kinds are component
indices, tag kinds tag indices, `create_entity` lists valid and unique,
`create_grouping` over at least two distinct valid kinds, and
`destroy_grouping` only for ids handed out by `create_grouping`
(`entity_grouping` handles exist for no other ids). -/
inductive Step : State → State → Prop where
  | create (s : State) (tags : List Nat) (comps : List (Nat × Nat)) :
      Step s (create_entity s tags comps).st
  | addComp (s : State) (h : Handle) (k : Nat) (v : Nat) (hk : k < s.nComp) :
      Step s (add_component s h k v).st
  | removeComp (s : State) (h : Handle) (k : Nat) (hk : k < s.nComp) :
      Step s (remove_component s h k).st
  | setTag (s : State) (h : Handle) (k : Nat) (b : Bool)
      (hk1 : s.nComp ≤ k) (hk2 : k < s.nComp + s.nTag) :
      Step s (set_tag s h k b).st
  | destroy (s : State) (h : Handle) :
      Step s (destroy_entity s h).st
  | createGrouping (s s2 : State) (kinds : List Nat) (gid : Nat)
      (hok : create_grouping s kinds = Except.ok (s2, gid)) :
      Step s s2
  | destroyGrouping (s : State) (gid : Nat) (hg : s.nComp + s.nTag ≤ gid) :
      Step s (destroy_grouping s gid)
  | setEM (s : State) : Step s (set_event_manager s)
  | clearEM (s : State) : Step s (clear_event_manager s)

/-- Registry states reachable from a freshly constructed manager by any
sequence of operations. -/
def Reachable (s : State) : Prop :=
  ∃ nc nt, Relation.ReflTransGen Step (init nc nt) s

/-! ### Lemmas about the sorted containers -/

section SortedLemmas

variable {α : Type} {keyf : α → Nat}

theorem findByKey_eq_some (l : List α) (i : Nat) (x : α)
    (h : findByKey keyf l i = some x) : x ∈ l ∧ keyf x = i := by
  induction l with
  | nil => simp [findByKey] at h
  | cons y ys ih =>
    by_cases hy : keyf y = i
    · rw [findByKey, if_pos hy] at h
      cases h
      exact ⟨List.mem_cons_self _ _, hy⟩
    · rw [findByKey, if_neg hy] at h
      have := ih h
      exact ⟨List.mem_cons_of_mem _ this.1, this.2⟩

theorem findByKey_isSome (l : List α) (i : Nat) :
    (findByKey keyf l i).isSome = true ↔ ∃ x ∈ l, keyf x = i := by
  induction l with
  | nil => simp [findByKey]
  | cons y ys ih =>
    by_cases hy : keyf y = i
    · rw [findByKey, if_pos hy]
      simp only [Option.isSome_some, true_iff]
      exact ⟨y, List.mem_cons_self _ _, hy⟩
    · rw [findByKey, if_neg hy, ih]
      constructor
      · rintro ⟨x, hx, rfl⟩
        exact ⟨x, List.mem_cons_of_mem _ hx, rfl⟩
      · rintro ⟨x, hx, rfl⟩
        rcases List.mem_cons.mp hx with rfl | hx
        · exact absurd rfl hy
        · exact ⟨x, hx, rfl⟩

theorem findByKey_eq_none (l : List α) (i : Nat) :
    findByKey keyf l i = none ↔ ∀ x ∈ l, keyf x ≠ i := by
  rw [← Option.not_isSome_iff_eq_none]
  simp [findByKey_isSome]

theorem findByKey_of_mem {l : List α} {i : Nat} (hs : KeySorted keyf l)
    {x : α} (hx : x ∈ l) (hi : keyf x = i) : findByKey keyf l i = some x := by
  induction l with
  | nil => simp at hx
  | cons y ys ih =>
    rcases List.mem_cons.mp hx with rfl | hx
    · rw [findByKey, if_pos hi]
    · have hy : keyf y ≠ i := by
        have := (List.pairwise_cons.mp hs).1 x hx
        omega
      rw [findByKey, if_neg hy]
      exact ih (List.pairwise_cons.mp hs).2 hx

theorem mem_of_mem_insertByKey {l : List α} {a y : α}
    (h : y ∈ insertByKey keyf l a) : y = a ∨ y ∈ l := by
  induction l with
  | nil =>
    rw [insertByKey] at h
    rcases List.mem_cons.mp h with rfl | h
    · exact Or.inl rfl
    · simp at h
  | cons x xs ih =>
    rw [insertByKey] at h
    by_cases h1 : keyf a < keyf x
    · rw [if_pos h1] at h
      rcases List.mem_cons.mp h with rfl | h
      · exact Or.inl rfl
      · exact Or.inr h
    · rw [if_neg h1] at h
      by_cases h2 : keyf x = keyf a
      · rw [if_pos h2] at h
        exact Or.inr h
      · rw [if_neg h2] at h
        rcases List.mem_cons.mp h with rfl | h
        · exact Or.inr (List.mem_cons_self _ _)
        · rcases ih h with rfl | h
          · exact Or.inl rfl
          · exact Or.inr (List.mem_cons_of_mem _ h)

theorem mem_insertByKey_of_mem {l : List α} {y : α} (a : α) (h : y ∈ l) :
    y ∈ insertByKey keyf l a := by
  induction l with
  | nil => simp at h
  | cons x xs ih =>
    rw [insertByKey]
    by_cases h1 : keyf a < keyf x
    · rw [if_pos h1]
      exact List.mem_cons_of_mem _ h
    · rw [if_neg h1]
      by_cases h2 : keyf x = keyf a
      · rw [if_pos h2]
        exact h
      · rw [if_neg h2]
        rcases List.mem_cons.mp h with rfl | h
        · exact List.mem_cons_self _ _
        · exact List.mem_cons_of_mem _ (ih h)

theorem self_mem_insertByKey {l : List α} {a : α}
    (hfresh : ∀ x ∈ l, keyf x ≠ keyf a) : a ∈ insertByKey keyf l a := by
  induction l with
  | nil =>
    rw [insertByKey]
    exact List.mem_cons_self _ _
  | cons x xs ih =>
    rw [insertByKey]
    by_cases h1 : keyf a < keyf x
    · rw [if_pos h1]
      exact List.mem_cons_self _ _
    · have h2 : keyf x ≠ keyf a := hfresh x (List.mem_cons_self _ _)
      rw [if_neg h1, if_neg h2]
      exact List.mem_cons_of_mem _
        (ih fun z hz => hfresh z (List.mem_cons_of_mem _ hz))

theorem insertByKey_sorted {l : List α} (hs : KeySorted keyf l) (a : α) :
    KeySorted keyf (insertByKey keyf l a) := by
  induction l with
  | nil =>
    rw [insertByKey]
    exact List.pairwise_singleton _ _
  | cons x xs ih =>
    rcases List.pairwise_cons.mp hs with ⟨hx, hxs⟩
    rw [insertByKey]
    by_cases h1 : keyf a < keyf x
    · rw [if_pos h1]
      refine List.pairwise_cons.mpr ⟨?_, hs⟩
      intro y hy
      rcases List.mem_cons.mp hy with rfl | hy
      · exact h1
      · exact lt_trans h1 (hx y hy)
    · rw [if_neg h1]
      by_cases h2 : keyf x = keyf a
      · rw [if_pos h2]
        exact hs
      · rw [if_neg h2]
        refine List.pairwise_cons.mpr ⟨?_, ih hxs⟩
        intro y hy
        rcases mem_of_mem_insertByKey hy with rfl | hy
        · omega
        · exact hx y hy

theorem mem_of_mem_eraseByKey {l : List α} {i : Nat} {y : α}
    (h : y ∈ eraseByKey keyf l i) : y ∈ l := by
  induction l with
  | nil =>
    rw [eraseByKey] at h
    simp at h
  | cons x xs ih =>
    rw [eraseByKey] at h
    by_cases hx : keyf x = i
    · rw [if_pos hx] at h
      exact List.mem_cons_of_mem _ h
    · rw [if_neg hx] at h
      rcases List.mem_cons.mp h with rfl | h
      · exact List.mem_cons_self _ _
      · exact List.mem_cons_of_mem _ (ih h)

theorem eraseByKey_sublist (l : List α) (i : Nat) :
    (eraseByKey keyf l i).Sublist l := by
  induction l with
  | nil => simp [eraseByKey]
  | cons x xs ih =>
    rw [eraseByKey]
    by_cases hx : keyf x = i
    · rw [if_pos hx]
      exact List.sublist_cons_self x xs
    · rw [if_neg hx]
      exact List.Sublist.cons₂ x ih

theorem eraseByKey_sorted {l : List α} (hs : KeySorted keyf l) (i : Nat) :
    KeySorted keyf (eraseByKey keyf l i) :=
  List.Pairwise.sublist (eraseByKey_sublist l i) hs

theorem mem_eraseByKey_of_ne {l : List α} {i : Nat} {y : α} (hy : y ∈ l)
    (hne : keyf y ≠ i) : y ∈ eraseByKey keyf l i := by
  induction l with
  | nil => simp at hy
  | cons x xs ih =>
    rw [eraseByKey]
    by_cases hx : keyf x = i
    · rw [if_pos hx]
      rcases List.mem_cons.mp hy with rfl | hy
      · omega
      · exact hy
    · rw [if_neg hx]
      rcases List.mem_cons.mp hy with rfl | hy
      · exact List.mem_cons_self _ _
      · exact List.mem_cons_of_mem _ (ih hy)

theorem not_mem_eraseByKey {l : List α} (hs : KeySorted keyf l) {i : Nat}
    {y : α} (hy : keyf y = i) : y ∉ eraseByKey keyf l i := by
  induction l with
  | nil =>
    rw [eraseByKey]
    simp
  | cons x xs ih =>
    rcases List.pairwise_cons.mp hs with ⟨hx, hxs⟩
    rw [eraseByKey]
    by_cases hxi : keyf x = i
    · rw [if_pos hxi]
      intro hmem
      have := hx y hmem
      omega
    · rw [if_neg hxi]
      intro hmem
      rcases List.mem_cons.mp hmem with rfl | hmem
      · omega
      · exact ih hxs hmem

theorem findByKey_eraseByKey_ne {l : List α} {i j : Nat} (hne : j ≠ i) :
    findByKey keyf (eraseByKey keyf l i) j = findByKey keyf l j := by
  induction l with
  | nil => rw [eraseByKey]
  | cons x xs ih =>
    rw [eraseByKey]
    by_cases hx : keyf x = i
    · have hxj : keyf x ≠ j := by omega
      rw [if_pos hx, findByKey, if_neg hxj]
    · rw [if_neg hx]
      by_cases hxj : keyf x = j
      · rw [findByKey, if_pos hxj, findByKey, if_pos hxj]
      · rw [findByKey, if_neg hxj, findByKey, if_neg hxj, ih]

theorem findByKey_insertByKey_ne {l : List α} {a : α} {j : Nat}
    (hne : j ≠ keyf a) :
    findByKey keyf (insertByKey keyf l a) j = findByKey keyf l j := by
  induction l with
  | nil =>
    have : keyf a ≠ j := by omega
    simp [insertByKey, findByKey, this]
  | cons x xs ih =>
    rw [insertByKey]
    by_cases h1 : keyf a < keyf x
    · rw [if_pos h1, findByKey, if_neg (by omega)]
    · rw [if_neg h1]
      by_cases h2 : keyf x = keyf a
      · rw [if_pos h2]
      · rw [if_neg h2]
        by_cases hxj : keyf x = j
        · rw [findByKey, if_pos hxj, findByKey, if_pos hxj]
        · rw [findByKey, if_neg hxj, findByKey, if_neg hxj, ih]

theorem eq_of_sorted_mem_iff {l1 l2 : List α} (h1 : KeySorted keyf l1)
    (h2 : KeySorted keyf l2) (h : ∀ x, x ∈ l1 ↔ x ∈ l2) : l1 = l2 := by
  induction l1 generalizing l2 with
  | nil =>
    cases l2 with
    | nil => rfl
    | cons b t2 => exact absurd ((h b).mpr (List.mem_cons_self _ _)) (by simp)
  | cons a t1 ih =>
    cases l2 with
    | nil => exact absurd ((h a).mp (List.mem_cons_self _ _)) (by simp)
    | cons b t2 =>
      rcases List.pairwise_cons.mp h1 with ⟨ha, ht1⟩
      rcases List.pairwise_cons.mp h2 with ⟨hb, ht2⟩
      have hab : a = b := by
        rcases List.mem_cons.mp ((h a).mp (List.mem_cons_self _ _)) with hh | hh
        · exact hh
        · rcases List.mem_cons.mp ((h b).mpr (List.mem_cons_self _ _)) with hh2 | hh2
          · exact hh2.symm
          · have := hb a hh
            have := ha b hh2
            omega
      subst hab
      have : t1 = t2 := by
        refine ih ht1 ht2 fun x => ⟨fun hx => ?_, fun hx => ?_⟩
        · rcases List.mem_cons.mp ((h x).mp (List.mem_cons_of_mem _ hx)) with rfl | hh
          · have := ha x hx
            omega
          · exact hh
        · rcases List.mem_cons.mp ((h x).mpr (List.mem_cons_of_mem _ hx)) with rfl | hh
          · have := hb x hx
            omega
          · exact hh
      rw [this]

theorem insertByKey_eq_append {l : List α} {a : α}
    (h : ∀ y ∈ l, keyf y < keyf a) : insertByKey keyf l a = l ++ [a] := by
  induction l with
  | nil => rw [insertByKey]; rfl
  | cons x xs ih =>
    have hx := h x (List.mem_cons_self _ _)
    rw [insertByKey, if_neg (by omega), if_neg (by omega),
      ih fun y hy => h y (List.mem_cons_of_mem _ hy)]
    rfl

end SortedLemmas

/-! ### Lemmas about `mapRec`, `toFlatSet` and the store accessors -/

theorem mapRec_map_id (l : List EntityRec) (i : Nat) (f : Finset ℕ → Finset ℕ) :
    (mapRec l i f).map EntityRec.id = l.map EntityRec.id := by
  induction l with
  | nil => rfl
  | cons x xs ih =>
    by_cases hx : x.id = i
    · simp [mapRec, hx] at ih ⊢
      simpa [mapRec] using ih
    · simp [mapRec, hx] at ih ⊢
      simpa [mapRec] using ih

theorem mapRec_sorted {l : List EntityRec} (hs : KeySorted EntityRec.id l)
    (i : Nat) (f : Finset ℕ → Finset ℕ) : KeySorted EntityRec.id (mapRec l i f) := by
  have h1 : List.Pairwise (fun a b : Nat => a < b) ((mapRec l i f).map EntityRec.id) := by
    rw [mapRec_map_id]
    exact List.pairwise_map.mpr hs
  exact List.pairwise_map.mp h1

theorem mem_mapRec_of_ne {l : List EntityRec} {i : Nat}
    {f : Finset ℕ → Finset ℕ} {y : EntityRec} (hy : y.id ≠ i) :
    y ∈ mapRec l i f ↔ y ∈ l := by
  constructor
  · intro h
    rcases List.mem_map.mp h with ⟨r, hr, hry⟩
    by_cases hri : r.id = i
    · rw [if_pos hri] at hry
      rw [← hry] at hy
      exact absurd hri hy
    · rw [if_neg hri] at hry
      rwa [← hry]
  · intro h
    refine List.mem_map.mpr ⟨y, h, ?_⟩
    rw [if_neg hy]

theorem mem_mapRec_self {l : List EntityRec} {i : Nat} {m : Finset ℕ}
    (f : Finset ℕ → Finset ℕ) (h : (⟨i, m⟩ : EntityRec) ∈ l) :
    (⟨i, f m⟩ : EntityRec) ∈ mapRec l i f :=
  List.mem_map.mpr ⟨⟨i, m⟩, h, by rw [if_pos rfl]⟩

theorem mapRec_cons (x : EntityRec) (xs : List EntityRec) (i : Nat)
    (f : Finset ℕ → Finset ℕ) :
    mapRec (x :: xs) i f =
      (if x.id = i then (⟨x.id, f x.mask⟩ : EntityRec) else x) :: mapRec xs i f :=
  rfl

theorem mem_mapRec_elim {l : List EntityRec} {i : Nat}
    {f : Finset ℕ → Finset ℕ} {y : EntityRec} (h : y ∈ mapRec l i f) :
    (y ∈ l ∧ y.id ≠ i) ∨ ∃ m, (⟨i, m⟩ : EntityRec) ∈ l ∧ y = ⟨i, f m⟩ := by
  rcases List.mem_map.mp h with ⟨r, hr, hry⟩
  by_cases hri : r.id = i
  · rw [if_pos hri] at hry
    have hr2 : r = ⟨i, r.mask⟩ := by
      cases r
      simp_all
    refine Or.inr ⟨r.mask, by rwa [← hr2], ?_⟩
    rw [← hry, hri]
  · rw [if_neg hri] at hry
    subst hry
    exact Or.inl ⟨hr, hri⟩

theorem findByKey_mapRec_ne {l : List EntityRec} {i j : Nat}
    (f : Finset ℕ → Finset ℕ) (hne : j ≠ i) :
    findByKey EntityRec.id (mapRec l i f) j = findByKey EntityRec.id l j := by
  induction l with
  | nil => rfl
  | cons x xs ih =>
    rw [mapRec_cons]
    by_cases hx : x.id = i
    · have hxj : x.id ≠ j := by omega
      rw [if_pos hx, findByKey, findByKey, if_neg hxj,
        if_neg (show ¬(⟨x.id, f x.mask⟩ : EntityRec).id = j from hxj)]
      exact ih
    · rw [if_neg hx]
      by_cases hxj : x.id = j
      · rw [findByKey, findByKey, if_pos hxj, if_pos hxj]
      · rw [findByKey, findByKey, if_neg hxj, if_neg hxj]
        exact ih

theorem findByKey_mapRec_self (l : List EntityRec) (i : Nat)
    (f : Finset ℕ → Finset ℕ) :
    findByKey EntityRec.id (mapRec l i f) i =
      (findByKey EntityRec.id l i).map fun r => ⟨r.id, f r.mask⟩ := by
  induction l with
  | nil => rfl
  | cons x xs ih =>
    rw [mapRec_cons]
    by_cases hx : x.id = i
    · rw [if_pos hx, findByKey, findByKey,
        if_pos (show (⟨x.id, f x.mask⟩ : EntityRec).id = i from hx), if_pos hx]
      rfl
    · rw [if_neg hx, findByKey, findByKey, if_neg hx, if_neg hx]
      exact ih

theorem toFlatSet_sorted_aux (l : List EntityRec) (acc : List EntityRec)
    (hacc : KeySorted EntityRec.id acc) :
    KeySorted EntityRec.id
      (l.foldl (fun a r => insertByKey EntityRec.id a r) acc) := by
  induction l generalizing acc with
  | nil => exact hacc
  | cons x xs ih => exact ih _ (insertByKey_sorted hacc x)

theorem toFlatSet_sorted (l : List EntityRec) :
    KeySorted EntityRec.id (toFlatSet l) :=
  toFlatSet_sorted_aux l [] (List.Pairwise.nil)

theorem toFlatSet_eq_self {l : List EntityRec}
    (hs : KeySorted EntityRec.id l) : toFlatSet l = l := by
  induction l using List.reverseRecOn with
  | nil => rfl
  | append_singleton xs x ih =>
    rcases List.pairwise_append.mp hs with ⟨hxs, _, hlt⟩
    have h1 : toFlatSet (xs ++ [x]) =
        insertByKey EntityRec.id (toFlatSet xs) x := by
      rw [toFlatSet, List.foldl_append]
      rfl
    rw [h1, ih hxs, insertByKey_eq_append]
    intro y hy
    exact hlt y hy x (List.mem_cons_self _ _)

theorem getStore_setStore_self {s : State} {k : Nat}
    (hk : k < s.components.length) (st : Store) :
    getStore (setStore s k st) k = st := by
  rw [getStore, setStore, List.getD_eq_getElem?_getD, List.getElem?_set,
    if_pos rfl, if_pos hk]
  rfl

theorem getStore_setStore_ne {s : State} {k j : Nat} (hne : k ≠ j) (st : Store) :
    getStore (setStore s k st) j = getStore s j := by
  rw [getStore, setStore, List.getD_eq_getElem?_getD, List.getElem?_set,
    if_neg hne, getStore, List.getD_eq_getElem?_getD]

/-! ### The registry invariant -/

/-- All conditions a well-formed grouping `(mask, snapshot)` satisfies
relative to the live entity container `E`:
* the snapshot is a sorted set;
* every snapshot member is a live record (identity and cached mask agree
  with the authoritative record) matching the grouping mask;
* every live record matching the grouping mask is in the snapshot. -/
structure GrpOk (E : List EntityRec) (gm : Finset ℕ) (gc : List EntityRec) : Prop where
  sorted : KeySorted EntityRec.id gc
  mirror : ∀ rc ∈ gc, rc ∈ E ∧ gm ⊆ rc.mask
  complete : ∀ r ∈ E, gm ⊆ r.mask → r ∈ gc

/-- The inductive invariant of a registry state. -/
structure Inv (s : State) : Prop where
  compLen : s.components.length = s.nComp
  entSorted : KeySorted EntityRec.id s.entities
  entFresh : ∀ r ∈ s.entities, r.id < s.currentEntityId
  storeSorted : ∀ k, KeySorted Prod.fst (getStore s k)
  maskStore : ∀ k < s.nComp, ∀ i : Nat,
    (∃ r ∈ s.entities, r.id = i ∧ k ∈ r.mask) ↔ (∃ p ∈ getStore s k, p.1 = i)
  grpSorted : KeySorted Prod.fst s.groupings
  grpIdLt : ∀ g ∈ s.groupings, g.1 < s.currentGroupingId
  grpNonempty : ∀ g ∈ s.groupings, g.2.1.Nonempty
  grpImplicit : ∀ k, k < s.nComp + s.nTag →
    ∃ gc, (k, ({k} : Finset ℕ), gc) ∈ s.groupings
  grpOk : ∀ g ∈ s.groupings, GrpOk s.entities g.2.1 g.2.2

theorem Inv_init (nc nt : Nat) : Inv (init nc nt) := by
  refine ⟨?_, ?_, ?_, ?_, ?_, ?_, ?_, ?_, ?_, ?_⟩
  · simp [init]
  · simp [init]
  · simp [init]
  · intro k
    rw [getStore]
    rcases Nat.lt_or_ge k nc with hk | hk
    · rw [List.getD_eq_getElem?_getD]
      simp [init, List.getElem?_replicate, hk]
    · rw [List.getD_eq_getElem?_getD]
      simp only [init]
      rw [List.getElem?_eq_none (by simpa using hk)]
      simp
  · intro k _ i
    constructor
    · rintro ⟨r, hr, _⟩
      simp [init] at hr
    · rintro ⟨p, hp, _⟩
      rw [getStore, List.getD_eq_getElem?_getD] at hp
      simp only [init] at hp
      rcases Nat.lt_or_ge k nc with hk | hk
      · rw [List.getElem?_replicate, if_pos hk] at hp
        simp at hp
      · rw [List.getElem?_eq_none (by simpa using hk)] at hp
        simp at hp
  · simp only [init]
    refine List.pairwise_map.mpr ?_
    simpa using List.pairwise_lt_range _
  · intro g hg
    simp only [init] at hg
    rcases List.mem_map.mp hg with ⟨k, hk, rfl⟩
    simpa [init] using List.mem_range.mp hk
  · intro g hg
    simp only [init] at hg
    rcases List.mem_map.mp hg with ⟨k, hk, rfl⟩
    simp
  · intro k hk
    refine ⟨[], ?_⟩
    simp only [init]
    exact List.mem_map.mpr ⟨k, List.mem_range.mpr hk, rfl⟩
  · intro g hg
    simp only [init] at hg
    rcases List.mem_map.mp hg with ⟨k, hk, rfl⟩
    exact ⟨List.Pairwise.nil, by simp, by simp [init]⟩

/-- In a sorted entity container a record is determined by its identity. -/
theorem mem_unique_of_sorted {E : List EntityRec}
    (hE : KeySorted EntityRec.id E) {i : Nat} {m : Finset ℕ}
    (h1 : (⟨i, m⟩ : EntityRec) ∈ E) {rc : EntityRec} (h2 : rc ∈ E)
    (hid : rc.id = i) : rc = ⟨i, m⟩ := by
  have e1 := findByKey_of_mem hE h1 rfl
  have e2 := findByKey_of_mem hE h2 hid
  rw [e1] at e2
  exact (Option.some_injective _ e2).symm

/-- Effect of the `add_bit` grouping update on one well-formed grouping:
whichever of the three branches fires, the grouping stays well-formed with
respect to the entity container with bit `k` added to record `i`. -/
theorem GrpOk_add_bit {E : List EntityRec} {i : Nat} {m : Finset ℕ} {k : Nat}
    (hE : KeySorted EntityRec.id E) (hmem : (⟨i, m⟩ : EntityRec) ∈ E)
    (hk : k ∉ m) {gm : Finset ℕ} {gc : List EntityRec} (hg : GrpOk E gm gc) :
    GrpOk (mapRec E i fun mm => mm ∪ {k}) gm
      (if ¬(gm ∩ m = gm) ∧ gm ∩ (m ∪ {k}) = gm then
        insertByKey EntityRec.id gc ⟨i, m ∪ {k}⟩
      else if gm ∩ m = gm then mapRec gc i fun mm => mm ∪ {k}
      else gc) := by
  have hnotm : ¬(gm ∩ m = gm) ∧ gm ∩ (m ∪ {k}) = gm →
      ∀ rc ∈ gc, rc.id ≠ i := by
    rintro ⟨hw, _⟩ rc hrc hrci
    rcases hg.mirror rc hrc with ⟨hrcE, hrcm⟩
    have := mem_unique_of_sorted hE hmem hrcE hrci
    subst this
    exact hw (Finset.inter_eq_left.mpr hrcm)
  split_ifs with h1 h2
  · -- the entity newly matches: it is inserted into the snapshot
    refine ⟨insertByKey_sorted hg.sorted _, ?_, ?_⟩
    · intro rc hrc
      rcases mem_of_mem_insertByKey hrc with rfl | hrc
      · exact ⟨mem_mapRec_self _ hmem, Finset.inter_eq_left.mp h1.2⟩
      · rcases hg.mirror rc hrc with ⟨hrcE, hrcm⟩
        exact ⟨(mem_mapRec_of_ne (hnotm h1 rc hrc)).mpr hrcE, hrcm⟩
    · intro r hr hrm
      rcases mem_mapRec_elim hr with ⟨hrE, hri⟩ | ⟨m0, hm0, rfl⟩
      · exact mem_insertByKey_of_mem _ (hg.complete r hrE hrm)
      · have : m0 = m := by
          have := mem_unique_of_sorted hE hmem hm0 rfl
          simpa using congrArg EntityRec.mask this
        subst this
        exact self_mem_insertByKey fun x hx => hnotm h1 x hx
  · -- the entity already matched: the snapshot's cached mask is refreshed
    have hin : (⟨i, m⟩ : EntityRec) ∈ gc :=
      hg.complete _ hmem (Finset.inter_eq_left.mp h2)
    refine ⟨mapRec_sorted hg.sorted _ _, ?_, ?_⟩
    · intro rc hrc
      rcases mem_mapRec_elim hrc with ⟨hrcgc, hrci⟩ | ⟨m0, hm0, rfl⟩
      · rcases hg.mirror rc hrcgc with ⟨hrcE, hrcm⟩
        exact ⟨(mem_mapRec_of_ne hrci).mpr hrcE, hrcm⟩
      · have hm0E := (hg.mirror _ hm0).1
        have : m0 = m := by
          have := mem_unique_of_sorted hE hmem hm0E rfl
          simpa using congrArg EntityRec.mask this
        subst this
        refine ⟨mem_mapRec_self _ hmem, ?_⟩
        exact Finset.Subset.trans (Finset.inter_eq_left.mp h2)
          Finset.subset_union_left
    · intro r hr hrm
      rcases mem_mapRec_elim hr with ⟨hrE, hri⟩ | ⟨m0, hm0, rfl⟩
      · exact (mem_mapRec_of_ne hri).mpr (hg.complete r hrE hrm)
      · have : m0 = m := by
          have := mem_unique_of_sorted hE hmem hm0 rfl
          simpa using congrArg EntityRec.mask this
        subst this
        exact mem_mapRec_self _ hin
  · -- the entity matches neither before nor after: grouping untouched
    refine ⟨hg.sorted, ?_, ?_⟩
    · intro rc hrc
      rcases hg.mirror rc hrc with ⟨hrcE, hrcm⟩
      have hrci : rc.id ≠ i := by
        intro hrci
        have := mem_unique_of_sorted hE hmem hrcE hrci
        subst this
        exact h2 (Finset.inter_eq_left.mpr hrcm)
      exact ⟨(mem_mapRec_of_ne hrci).mpr hrcE, hrcm⟩
    · intro r hr hrm
      rcases mem_mapRec_elim hr with ⟨hrE, hri⟩ | ⟨m0, hm0, rfl⟩
      · exact hg.complete r hrE hrm
      · have : m0 = m := by
          have := mem_unique_of_sorted hE hmem hm0 rfl
          simpa using congrArg EntityRec.mask this
        subst this
        exact absurd ⟨fun hw => h2 hw, Finset.inter_eq_left.mpr hrm⟩ h1

/-- Effect of the `remove_bit` grouping update on one well-formed grouping.
`m` is the record's mask before the clear (`k ∈ m`); the branch conditions
are computed from `m.erase k` exactly as the code computes them from the
already-cleared record. -/
theorem GrpOk_remove_bit {E : List EntityRec} {i : Nat} {m : Finset ℕ} {k : Nat}
    (hE : KeySorted EntityRec.id E) (hmem : (⟨i, m⟩ : EntityRec) ∈ E)
    (hk : k ∈ m) {gm : Finset ℕ} {gc : List EntityRec} (hg : GrpOk E gm gc) :
    GrpOk (mapRec E i fun mm => mm.erase k) gm
      (if ¬(gm ∩ m.erase k = gm) ∧ gm ∩ (m.erase k ∪ {k}) = gm then
        eraseByKey EntityRec.id gc i
      else if gm ∩ m.erase k = gm then mapRec gc i fun mm => mm.erase k
      else gc) := by
  have hunion : m.erase k ∪ {k} = m := by
    ext a
    by_cases ha : a = k <;> simp [ha, hk, Finset.mem_erase]
  split_ifs with h1 h2
  · -- the entity no longer matches: erased from the snapshot
    refine ⟨eraseByKey_sorted hg.sorted _, ?_, ?_⟩
    · intro rc hrc
      have hrcgc := mem_of_mem_eraseByKey hrc
      rcases hg.mirror rc hrcgc with ⟨hrcE, hrcm⟩
      have hrci : rc.id ≠ i := by
        intro hrci
        exact not_mem_eraseByKey hg.sorted hrci hrc
      exact ⟨(mem_mapRec_of_ne hrci).mpr hrcE, hrcm⟩
    · intro r hr hrm
      rcases mem_mapRec_elim hr with ⟨hrE, hri⟩ | ⟨m0, hm0, rfl⟩
      · exact mem_eraseByKey_of_ne (hg.complete r hrE hrm) hri
      · have : m0 = m := by
          have := mem_unique_of_sorted hE hmem hm0 rfl
          simpa using congrArg EntityRec.mask this
        subst this
        exact absurd (Finset.inter_eq_left.mpr hrm) h1.1
  · -- the entity still matches: the snapshot's cached mask is refreshed
    have hin : (⟨i, m⟩ : EntityRec) ∈ gc := by
      refine hg.complete _ hmem ?_
      exact Finset.Subset.trans (Finset.inter_eq_left.mp h2) (Finset.erase_subset _ _)
    refine ⟨mapRec_sorted hg.sorted _ _, ?_, ?_⟩
    · intro rc hrc
      rcases mem_mapRec_elim hrc with ⟨hrcgc, hrci⟩ | ⟨m0, hm0, rfl⟩
      · rcases hg.mirror rc hrcgc with ⟨hrcE, hrcm⟩
        exact ⟨(mem_mapRec_of_ne hrci).mpr hrcE, hrcm⟩
      · have hm0E := (hg.mirror _ hm0).1
        have : m0 = m := by
          have := mem_unique_of_sorted hE hmem hm0E rfl
          simpa using congrArg EntityRec.mask this
        subst this
        exact ⟨mem_mapRec_self _ hmem, Finset.inter_eq_left.mp h2⟩
    · intro r hr hrm
      rcases mem_mapRec_elim hr with ⟨hrE, hri⟩ | ⟨m0, hm0, rfl⟩
      · exact (mem_mapRec_of_ne hri).mpr (hg.complete r hrE hrm)
      · have : m0 = m := by
          have := mem_unique_of_sorted hE hmem hm0 rfl
          simpa using congrArg EntityRec.mask this
        subst this
        exact mem_mapRec_self _ hin
  · -- the entity did not match even before the clear: grouping untouched
    refine ⟨hg.sorted, ?_, ?_⟩
    · intro rc hrc
      rcases hg.mirror rc hrc with ⟨hrcE, hrcm⟩
      have hrci : rc.id ≠ i := by
        intro hrci
        have := mem_unique_of_sorted hE hmem hrcE hrci
        subst this
        rw [← hunion] at hrcm
        exact h1 ⟨h2, Finset.inter_eq_left.mpr hrcm⟩
      exact ⟨(mem_mapRec_of_ne hrci).mpr hrcE, hrcm⟩
    · intro r hr hrm
      rcases mem_mapRec_elim hr with ⟨hrE, hri⟩ | ⟨m0, hm0, rfl⟩
      · exact hg.complete r hrE hrm
      · have : m0 = m := by
          have := mem_unique_of_sorted hE hmem hm0 rfl
          simpa using congrArg EntityRec.mask this
        subst this
        exact absurd (Finset.inter_eq_left.mpr hrm) h2

/-- Exhaustive case analysis of `get_entity_and_status`. -/
theorem ges_cases (s : State) (h : Handle) :
    (findByKey EntityRec.id s.entities h.id = none ∧
      get_entity_and_status s h = (none, entity_status.DELETED)) ∨
    ∃ r0, findByKey EntityRec.id s.entities h.id = some r0 ∧
      ((h.mask ≠ r0.mask ∧
          get_entity_and_status s h = (some r0, entity_status.STALE)) ∨
       (h.mask = r0.mask ∧
          get_entity_and_status s h = (some r0, entity_status.OK))) := by
  cases hf : findByKey EntityRec.id s.entities h.id with
  | none =>
    refine Or.inl ⟨rfl, ?_⟩
    simp [get_entity_and_status, hf]
  | some r0 =>
    refine Or.inr ⟨r0, rfl, ?_⟩
    by_cases hm : h.mask ≠ r0.mask
    · refine Or.inl ⟨hm, ?_⟩
      simp only [get_entity_and_status, hf]
      rw [if_pos hm]
    · refine Or.inr ⟨not_ne_iff.mp hm, ?_⟩
      simp only [get_entity_and_status, hf]
      rw [if_neg hm]

/-- `assert_entity` succeeds exactly on a fresh handle: the record it hands
back is the authoritative record, which agrees with the handle. -/
theorem assert_entity_ok {s : State} {h : Handle} {r : EntityRec}
    (hA : assert_entity s h = Except.ok r) :
    findByKey EntityRec.id s.entities h.id = some r ∧ r = ⟨h.id, h.mask⟩ := by
  rcases ges_cases s h with ⟨hf, hges⟩ | ⟨r0, hf, ⟨hm, hges⟩ | ⟨hm, hges⟩⟩
  · rw [assert_entity, hges] at hA
    simp at hA
  · rw [assert_entity, hges] at hA
    simp at hA
  · rw [assert_entity, hges] at hA
    simp only [Except.ok.injEq] at hA
    subst hA
    have hid := (findByKey_eq_some _ _ _ hf).2
    refine ⟨hf, ?_⟩
    cases r0
    simp_all

theorem assert_entity_error {s : State} {h : Handle} {e : error_code}
    (hA : assert_entity s h = Except.error e) : e = error_code.BAD_ENTITY := by
  rcases ges_cases s h with ⟨hf, hges⟩ | ⟨r0, hf, ⟨hm, hges⟩ | ⟨hm, hges⟩⟩ <;>
    rw [assert_entity, hges] at hA <;> simp_all

/-- `assert_entity` raises `BAD_ENTITY` exactly when the status is
`DELETED` or `STALE`, and returns the record exactly on `OK`. -/
theorem assert_entity_of_status (s : State) (h : Handle) :
    ((get_entity_and_status s h).2 = entity_status.DELETED ∨
      (get_entity_and_status s h).2 = entity_status.STALE) →
      assert_entity s h = Except.error error_code.BAD_ENTITY := by
  intro hst
  rcases ges_cases s h with ⟨hf, hges⟩ | ⟨r0, hf, ⟨hm, hges⟩ | ⟨hm, hges⟩⟩ <;>
    rw [assert_entity, hges] <;> rw [hges] at hst <;> simp_all

theorem exists_key_insertByKey {α : Type} {keyf : α → Nat} (l : List α)
    (a : α) (i : Nat) :
    (∃ p ∈ insertByKey keyf l a, keyf p = i) ↔
      i = keyf a ∨ ∃ p ∈ l, keyf p = i := by
  induction l with
  | nil =>
    rw [insertByKey]
    constructor
    · rintro ⟨p, hp, rfl⟩
      simp at hp
      subst hp
      exact Or.inl rfl
    · rintro (rfl | ⟨p, hp, rfl⟩)
      · exact ⟨a, by simp⟩
      · simp at hp
  | cons x xs ih =>
    rw [insertByKey]
    by_cases h1 : keyf a < keyf x
    · rw [if_pos h1]
      constructor
      · rintro ⟨p, hp, rfl⟩
        rcases List.mem_cons.mp hp with rfl | hp
        · exact Or.inl rfl
        · exact Or.inr ⟨p, hp, rfl⟩
      · rintro (rfl | ⟨p, hp, rfl⟩)
        · exact ⟨a, List.mem_cons_self _ _, rfl⟩
        · exact ⟨p, List.mem_cons_of_mem _ hp, rfl⟩
    · rw [if_neg h1]
      by_cases h2 : keyf x = keyf a
      · rw [if_pos h2]
        constructor
        · rintro ⟨p, hp, rfl⟩
          exact Or.inr ⟨p, hp, rfl⟩
        · rintro (rfl | ⟨p, hp, rfl⟩)
          · exact ⟨x, List.mem_cons_self _ _, h2⟩
          · exact ⟨p, hp, rfl⟩
      · rw [if_neg h2]
        constructor
        · rintro ⟨p, hp, rfl⟩
          rcases List.mem_cons.mp hp with rfl | hp
          · exact Or.inr ⟨p, List.mem_cons_self _ _, rfl⟩
          · rcases ih.mp ⟨p, hp, rfl⟩ with hh | ⟨q, hq, hqi⟩
            · exact Or.inl hh
            · exact Or.inr ⟨q, List.mem_cons_of_mem _ hq, hqi⟩
        · rintro (rfl | ⟨p, hp, rfl⟩)
          · rcases ih.mpr (Or.inl rfl) with ⟨q, hq, hqi⟩
            exact ⟨q, List.mem_cons_of_mem _ hq, hqi⟩
          · rcases List.mem_cons.mp hp with rfl | hp
            · exact ⟨p, List.mem_cons_self _ _, rfl⟩
            · rcases ih.mpr (Or.inr ⟨p, hp, rfl⟩) with ⟨q, hq, hqi⟩
              exact ⟨q, List.mem_cons_of_mem _ hq, hqi⟩

theorem exists_key_eraseByKey {α : Type} {keyf : α → Nat} {l : List α}
    (hs : KeySorted keyf l) (i0 i : Nat) :
    (∃ p ∈ eraseByKey keyf l i0, keyf p = i) ↔
      i ≠ i0 ∧ ∃ p ∈ l, keyf p = i := by
  constructor
  · rintro ⟨p, hp, rfl⟩
    refine ⟨?_, p, mem_of_mem_eraseByKey hp, rfl⟩
    intro hpi
    exact not_mem_eraseByKey hs hpi hp
  · rintro ⟨hne, p, hp, rfl⟩
    exact ⟨p, mem_eraseByKey_of_ne hp hne, rfl⟩

/-- Which identities with which bits exist after a `mapRec` mask update. -/
theorem exists_mapRec_iff {E : List EntityRec} {i0 : Nat} {m : Finset ℕ}
    (hE : KeySorted EntityRec.id E) (hmem : (⟨i0, m⟩ : EntityRec) ∈ E)
    (f : Finset ℕ → Finset ℕ) (i κ : Nat) :
    (∃ r2 ∈ mapRec E i0 f, r2.id = i ∧ κ ∈ r2.mask) ↔
      (if i = i0 then κ ∈ f m else ∃ r ∈ E, r.id = i ∧ κ ∈ r.mask) := by
  by_cases hi : i = i0
  · subst hi
    rw [if_pos rfl]
    constructor
    · rintro ⟨r2, hr2, hid, hκ⟩
      rcases mem_mapRec_elim hr2 with ⟨hrE, hri⟩ | ⟨m0, hm0, rfl⟩
      · exact absurd hid hri
      · have : m0 = m := by
          have := mem_unique_of_sorted hE hmem hm0 rfl
          simpa using congrArg EntityRec.mask this
        subst this
        exact hκ
    · intro hκ
      exact ⟨⟨i, f m⟩, mem_mapRec_self f hmem, rfl, hκ⟩
  · rw [if_neg hi]
    constructor
    · rintro ⟨r2, hr2, hid, hκ⟩
      rcases mem_mapRec_elim hr2 with ⟨hrE, _⟩ | ⟨m0, hm0, rfl⟩
      · exact ⟨r2, hrE, hid, hκ⟩
      · exact absurd hid.symm hi
    · rintro ⟨r, hr, hid, hκ⟩
      have hri : r.id ≠ i0 := by omega
      exact ⟨r, (mem_mapRec_of_ne hri).mpr hr, hid, hκ⟩

/-- The grouping maps performed by `add_bit`/`remove_bit`/`destroy_entity`
all have the shape `g ↦ (g.1, g.2.1, F g)`: grouping ids, masks, and hence
all metadata invariants are untouched. -/
theorem grp_map_meta {l : List (Nat × Finset ℕ × List EntityRec)}
    (F : Nat × Finset ℕ × List EntityRec → List EntityRec)
    (hsrt : KeySorted Prod.fst l) :
    KeySorted Prod.fst (l.map fun g => (g.1, g.2.1, F g)) := by
  refine List.pairwise_map.mpr ?_
  exact hsrt

theorem grp_map_mem {l : List (Nat × Finset ℕ × List EntityRec)}
    (F : Nat × Finset ℕ × List EntityRec → List EntityRec)
    {g2 : Nat × Finset ℕ × List EntityRec}
    (hg2 : g2 ∈ l.map fun g => (g.1, g.2.1, F g)) :
    ∃ g ∈ l, g2 = (g.1, g.2.1, F g) := by
  rcases List.mem_map.mp hg2 with ⟨g, hg, rfl⟩
  exact ⟨g, hg, rfl⟩

theorem grp_map_implicit {l : List (Nat × Finset ℕ × List EntityRec)}
    (F : Nat × Finset ℕ × List EntityRec → List EntityRec) {k : Nat}
    (himp : ∃ gc, (k, ({k} : Finset ℕ), gc) ∈ l) :
    ∃ gc, (k, ({k} : Finset ℕ), gc) ∈ l.map fun g => (g.1, g.2.1, F g) := by
  rcases himp with ⟨gc, hgc⟩
  exact ⟨F (k, {k}, gc), List.mem_map.mpr ⟨(k, {k}, gc), hgc, rfl⟩⟩

/-- The per-grouping container update of `add_bit` (lemma-side name for the
branch logic inside the loop). -/
def addBitG (m : Finset ℕ) (i k : Nat)
    (g : Nat × Finset ℕ × List EntityRec) : List EntityRec :=
  if ¬(g.2.1 ∩ m = g.2.1) ∧ g.2.1 ∩ (m ∪ {k}) = g.2.1 then
    insertByKey EntityRec.id g.2.2 ⟨i, m ∪ {k}⟩
  else if g.2.1 ∩ m = g.2.1 then mapRec g.2.2 i fun mm => mm ∪ {k}
  else g.2.2

/-- The per-grouping container update of `remove_bit`. -/
def removeBitG (m : Finset ℕ) (i k : Nat)
    (g : Nat × Finset ℕ × List EntityRec) : List EntityRec :=
  if ¬(g.2.1 ∩ m.erase k = g.2.1) ∧ g.2.1 ∩ (m.erase k ∪ {k}) = g.2.1 then
    eraseByKey EntityRec.id g.2.2 i
  else if g.2.1 ∩ m.erase k = g.2.1 then mapRec g.2.2 i fun mm => mm.erase k
  else g.2.2

theorem add_bit_eq {s : State} {h : Handle} (k : Nat)
    (hf : findByKey EntityRec.id s.entities h.id = some ⟨h.id, h.mask⟩) :
    add_bit s h k =
      ({ s with entities := mapRec s.entities h.id fun mm => mm ∪ {k}
                groupings := s.groupings.map fun g =>
                  (g.1, g.2.1, addBitG h.mask h.id k g) },
       ⟨h.id, h.mask ∪ {k}⟩) := by
  simp only [add_bit, hf]
  refine Prod.ext ?_ rfl
  simp only []
  congr 1
  refine List.map_congr_left fun g _ => ?_
  rw [addBitG]
  split_ifs <;> rfl

theorem getD_set_self {l : List Store} {k : Nat} (hk : k < l.length)
    (X : Store) : (l.set k X).getD k [] = X := by
  rw [List.getD_eq_getElem?_getD, List.getElem?_set, if_pos rfl, if_pos hk]
  rfl

theorem getD_set_ne {l : List Store} {k j : Nat} (hne : k ≠ j) (X : Store) :
    (l.set k X).getD j [] = l.getD j [] := by
  rw [List.getD_eq_getElem?_getD, List.getElem?_set, if_neg hne,
    List.getD_eq_getElem?_getD]

theorem remove_bit_eq {s : State} {h : Handle} (k : Nat)
    (hf : findByKey EntityRec.id s.entities h.id = some ⟨h.id, h.mask⟩) :
    remove_bit s h k =
      ({ s with entities := mapRec s.entities h.id fun mm => mm.erase k
                groupings := s.groupings.map fun g =>
                  (g.1, g.2.1, removeBitG h.mask h.id k g) },
       ⟨h.id, h.mask.erase k⟩) := by
  simp only [remove_bit, hf]
  refine Prod.ext ?_ rfl
  simp only []
  congr 1
  refine List.map_congr_left fun g _ => ?_
  rw [removeBitG]
  split_ifs <;> rfl

/-! ### Invariant preservation -/

theorem Inv_add_component {s : State} (hInv : Inv s) (h : Handle) (k v : Nat)
    (hk : k < s.nComp) : Inv (add_component s h k v).st := by
  cases hA : assert_entity s h with
  | error e => simpa only [add_component, hA] using hInv
  | ok r =>
    by_cases hbit : k ∈ h.mask
    · cases hc : findByKey Prod.fst (getStore s k) h.id with
      | some comp => simpa only [add_component, hA, if_pos hbit, hc] using hInv
      | none => simpa only [add_component, hA, if_pos hbit, hc] using hInv
    · rcases assert_entity_ok hA with ⟨hf, rfl⟩
      have hmem : (⟨h.id, h.mask⟩ : EntityRec) ∈ s.entities :=
        (findByKey_eq_some _ _ _ hf).1
      have hklen : k < s.components.length := by
        rw [hInv.compLen]
        exact hk
      have hf1 : findByKey EntityRec.id
          (setStore s k (insertByKey Prod.fst (getStore s k) (h.id, v))).entities
          h.id = some ⟨h.id, h.mask⟩ := hf
      have hst : (add_component s h k v).st =
          { s with
            components := s.components.set k
              (insertByKey Prod.fst (getStore s k) (h.id, v))
            entities := mapRec s.entities h.id fun mm => mm ∪ {k}
            groupings := s.groupings.map fun g =>
              (g.1, g.2.1, addBitG h.mask h.id k g) } := by
        simp only [add_component, hA, if_neg hbit]
        rw [add_bit_eq k hf1]
        rfl
      rw [hst]
      clear hst hf1 hA
      -- the freshly inserted key was not present (bit unset + mask/store)
      have hfresh : ∀ p ∈ getStore s k, p.1 ≠ h.id := by
        intro p hp hpi
        have := (hInv.maskStore k hk h.id).mpr ⟨p, hp, hpi⟩
        rcases this with ⟨r0, hr0, hr0i, hr0k⟩
        have := mem_unique_of_sorted hInv.entSorted hmem hr0 hr0i
        subst this
        exact hbit hr0k
      refine ⟨?_, ?_, ?_, ?_, ?_, ?_, ?_, ?_, ?_, ?_⟩ <;> dsimp only
      · simpa using hInv.compLen
      · exact mapRec_sorted hInv.entSorted _ _
      · intro r2 hr2
        rcases mem_mapRec_elim hr2 with ⟨hrE, _⟩ | ⟨m0, hm0, rfl⟩
        · exact hInv.entFresh r2 hrE
        · exact hInv.entFresh ⟨h.id, m0⟩ hm0
      · intro κ
        by_cases hκ : k = κ
        · subst hκ
          have : getStore
              { s with
                components := s.components.set k
                  (insertByKey Prod.fst (getStore s k) (h.id, v))
                entities := mapRec s.entities h.id fun mm => mm ∪ {k}
                groupings := s.groupings.map fun g =>
                  (g.1, g.2.1, addBitG h.mask h.id k g) } k =
              insertByKey Prod.fst (getStore s k) (h.id, v) :=
            getD_set_self hklen _
          rw [this]
          exact insertByKey_sorted (hInv.storeSorted k) _
        · have : getStore
              { s with
                components := s.components.set k
                  (insertByKey Prod.fst (getStore s k) (h.id, v))
                entities := mapRec s.entities h.id fun mm => mm ∪ {k}
                groupings := s.groupings.map fun g =>
                  (g.1, g.2.1, addBitG h.mask h.id k g) } κ = getStore s κ :=
            getD_set_ne hκ _
          rw [this]
          exact hInv.storeSorted κ
      · intro κ hκ i
        rw [exists_mapRec_iff hInv.entSorted hmem _ i κ]
        by_cases hκk : κ = k
        · subst hκk
          have hgs : getStore
              { s with
                components := s.components.set κ
                  (insertByKey Prod.fst (getStore s κ) (h.id, v))
                entities := mapRec s.entities h.id fun mm => mm ∪ {κ}
                groupings := s.groupings.map fun g =>
                  (g.1, g.2.1, addBitG h.mask h.id κ g) } κ =
              insertByKey Prod.fst (getStore s κ) (h.id, v) :=
            getD_set_self hklen _
          rw [hgs, exists_key_insertByKey]
          by_cases hi : i = h.id
          · subst hi
            rw [if_pos rfl]
            constructor
            · intro _
              exact Or.inl rfl
            · intro _
              exact Finset.mem_union_right _ (Finset.mem_singleton_self _)
          · rw [if_neg hi]
            rw [← hInv.maskStore κ hκ i]
            constructor
            · intro hx
              exact Or.inr hx
            · rintro (hx | hx)
              · exact absurd hx hi
              · exact hx
        · have hgs : getStore
              { s with
                components := s.components.set k
                  (insertByKey Prod.fst (getStore s k) (h.id, v))
                entities := mapRec s.entities h.id fun mm => mm ∪ {k}
                groupings := s.groupings.map fun g =>
                  (g.1, g.2.1, addBitG h.mask h.id k g) } κ = getStore s κ :=
            getD_set_ne (fun hh => hκk hh.symm) _
          rw [hgs, ← hInv.maskStore κ hκ i]
          by_cases hi : i = h.id
          · subst hi
            rw [if_pos rfl]
            have hκne : κ ≠ k := hκk
            constructor
            · intro hκm
              refine ⟨⟨h.id, h.mask⟩, hmem, rfl, ?_⟩
              rcases Finset.mem_union.mp hκm with hm | hm
              · exact hm
              · exact absurd (Finset.mem_singleton.mp hm) hκne
            · rintro ⟨r0, hr0, hr0i, hr0κ⟩
              have := mem_unique_of_sorted hInv.entSorted hmem hr0 hr0i
              subst this
              exact Finset.mem_union_left _ hr0κ
          · rw [if_neg hi]
      · exact grp_map_meta _ hInv.grpSorted
      · intro g2 hg2
        rcases grp_map_mem _ hg2 with ⟨g, hg, rfl⟩
        exact hInv.grpIdLt g hg
      · intro g2 hg2
        rcases grp_map_mem _ hg2 with ⟨g, hg, rfl⟩
        exact hInv.grpNonempty g hg
      · intro κ hκ
        exact grp_map_implicit _ (hInv.grpImplicit κ hκ)
      · intro g2 hg2
        rcases grp_map_mem _ hg2 with ⟨g, hg, rfl⟩
        show GrpOk _ g.2.1 (addBitG h.mask h.id k g)
        rw [addBitG]
        exact GrpOk_add_bit hInv.entSorted hmem hbit (hInv.grpOk g hg)

theorem Inv_remove_component {s : State} (hInv : Inv s) (h : Handle) (k : Nat)
    (hk : k < s.nComp) : Inv (remove_component s h k).st := by
  cases hA : assert_entity s h with
  | error e => simpa only [remove_component, hA] using hInv
  | ok r =>
    by_cases hbit : k ∈ h.mask
    · rcases assert_entity_ok hA with ⟨hf, rfl⟩
      have hmem : (⟨h.id, h.mask⟩ : EntityRec) ∈ s.entities :=
        (findByKey_eq_some _ _ _ hf).1
      have hklen : k < s.components.length := by
        rw [hInv.compLen]
        exact hk
      have hf1 : findByKey EntityRec.id
          (setStore s k (eraseByKey Prod.fst (getStore s k) h.id)).entities
          h.id = some ⟨h.id, h.mask⟩ := hf
      have hst : (remove_component s h k).st =
          { s with
            components := s.components.set k
              (eraseByKey Prod.fst (getStore s k) h.id)
            entities := mapRec s.entities h.id fun mm => mm.erase k
            groupings := s.groupings.map fun g =>
              (g.1, g.2.1, removeBitG h.mask h.id k g) } := by
        simp only [remove_component, hA, if_pos hbit]
        rw [remove_bit_eq k hf1]
        rfl
      rw [hst]
      clear hst hf1 hA
      refine ⟨?_, ?_, ?_, ?_, ?_, ?_, ?_, ?_, ?_, ?_⟩ <;> dsimp only
      · simpa using hInv.compLen
      · exact mapRec_sorted hInv.entSorted _ _
      · intro r2 hr2
        rcases mem_mapRec_elim hr2 with ⟨hrE, _⟩ | ⟨m0, hm0, rfl⟩
        · exact hInv.entFresh r2 hrE
        · exact hInv.entFresh ⟨h.id, m0⟩ hm0
      · intro κ
        by_cases hκ : k = κ
        · subst hκ
          have : getStore
              { s with
                components := s.components.set k
                  (eraseByKey Prod.fst (getStore s k) h.id)
                entities := mapRec s.entities h.id fun mm => mm.erase k
                groupings := s.groupings.map fun g =>
                  (g.1, g.2.1, removeBitG h.mask h.id k g) } k =
              eraseByKey Prod.fst (getStore s k) h.id :=
            getD_set_self hklen _
          rw [this]
          exact eraseByKey_sorted (hInv.storeSorted k) _
        · have : getStore
              { s with
                components := s.components.set k
                  (eraseByKey Prod.fst (getStore s k) h.id)
                entities := mapRec s.entities h.id fun mm => mm.erase k
                groupings := s.groupings.map fun g =>
                  (g.1, g.2.1, removeBitG h.mask h.id k g) } κ = getStore s κ :=
            getD_set_ne hκ _
          rw [this]
          exact hInv.storeSorted κ
      · intro κ hκ i
        rw [exists_mapRec_iff hInv.entSorted hmem _ i κ]
        by_cases hκk : κ = k
        · subst hκk
          have hgs : getStore
              { s with
                components := s.components.set κ
                  (eraseByKey Prod.fst (getStore s κ) h.id)
                entities := mapRec s.entities h.id fun mm => mm.erase κ
                groupings := s.groupings.map fun g =>
                  (g.1, g.2.1, removeBitG h.mask h.id κ g) } κ =
              eraseByKey Prod.fst (getStore s κ) h.id :=
            getD_set_self hklen _
          rw [hgs, exists_key_eraseByKey (hInv.storeSorted κ)]
          by_cases hi : i = h.id
          · subst hi
            rw [if_pos rfl]
            constructor
            · intro hx
              exact absurd (Finset.mem_erase.mp hx).1 (by simp)
            · rintro ⟨hne, _⟩
              exact absurd rfl hne
          · rw [if_neg hi, ← hInv.maskStore κ hκ i]
            constructor
            · intro hx
              exact ⟨hi, hx⟩
            · rintro ⟨_, hx⟩
              exact hx
        · have hgs : getStore
              { s with
                components := s.components.set k
                  (eraseByKey Prod.fst (getStore s k) h.id)
                entities := mapRec s.entities h.id fun mm => mm.erase k
                groupings := s.groupings.map fun g =>
                  (g.1, g.2.1, removeBitG h.mask h.id k g) } κ = getStore s κ :=
            getD_set_ne (fun hh => hκk hh.symm) _
          rw [hgs, ← hInv.maskStore κ hκ i]
          by_cases hi : i = h.id
          · subst hi
            rw [if_pos rfl]
            constructor
            · intro hκm
              exact ⟨⟨h.id, h.mask⟩, hmem, rfl, (Finset.mem_erase.mp hκm).2⟩
            · rintro ⟨r0, hr0, hr0i, hr0κ⟩
              have := mem_unique_of_sorted hInv.entSorted hmem hr0 hr0i
              subst this
              exact Finset.mem_erase.mpr ⟨hκk, hr0κ⟩
          · rw [if_neg hi]
      · exact grp_map_meta _ hInv.grpSorted
      · intro g2 hg2
        rcases grp_map_mem _ hg2 with ⟨g, hg, rfl⟩
        exact hInv.grpIdLt g hg
      · intro g2 hg2
        rcases grp_map_mem _ hg2 with ⟨g, hg, rfl⟩
        exact hInv.grpNonempty g hg
      · intro κ hκ
        exact grp_map_implicit _ (hInv.grpImplicit κ hκ)
      · intro g2 hg2
        rcases grp_map_mem _ hg2 with ⟨g, hg, rfl⟩
        show GrpOk _ g.2.1 (removeBitG h.mask h.id k g)
        rw [removeBitG]
        exact GrpOk_remove_bit hInv.entSorted hmem hbit (hInv.grpOk g hg)
    · simpa only [remove_component, hA, if_neg hbit] using hInv

theorem Inv_set_tag {s : State} (hInv : Inv s) (h : Handle) (k : Nat)
    (b : Bool) (hk1 : s.nComp ≤ k) : Inv (set_tag s h k b).st := by
  cases hA : assert_entity s h with
  | error e => simpa only [set_tag, hA] using hInv
  | ok r =>
    rcases assert_entity_ok hA with ⟨hf, rfl⟩
    have hmem : (⟨h.id, h.mask⟩ : EntityRec) ∈ s.entities :=
      (findByKey_eq_some _ _ _ hf).1
    by_cases hold : (decide (k ∈ h.mask)) ≠ b
    · cases b with
      | true =>
        have hbit : k ∉ h.mask := by simpa using hold
        have hst : (set_tag s h k true).st =
            { s with
              entities := mapRec s.entities h.id fun mm => mm ∪ {k}
              groupings := s.groupings.map fun g =>
                (g.1, g.2.1, addBitG h.mask h.id k g) } := by
          simp only [set_tag, hA, if_pos hold, if_true]
          rw [add_bit_eq k hf]
        rw [hst]
        clear hst hA
        refine ⟨?_, ?_, ?_, ?_, ?_, ?_, ?_, ?_, ?_, ?_⟩ <;> dsimp only
        · exact hInv.compLen
        · exact mapRec_sorted hInv.entSorted _ _
        · intro r2 hr2
          rcases mem_mapRec_elim hr2 with ⟨hrE, _⟩ | ⟨m0, hm0, rfl⟩
          · exact hInv.entFresh r2 hrE
          · exact hInv.entFresh ⟨h.id, m0⟩ hm0
        · exact hInv.storeSorted
        · intro κ hκ i
          have hgs : getStore
              { s with
                entities := mapRec s.entities h.id fun mm => mm ∪ {k}
                groupings := s.groupings.map fun g =>
                  (g.1, g.2.1, addBitG h.mask h.id k g) } κ = getStore s κ := rfl
          rw [hgs, exists_mapRec_iff hInv.entSorted hmem _ i κ,
            ← hInv.maskStore κ hκ i]
          by_cases hi : i = h.id
          · subst hi
            rw [if_pos rfl]
            have hκk : κ ≠ k := by omega
            constructor
            · intro hκm
              refine ⟨⟨h.id, h.mask⟩, hmem, rfl, ?_⟩
              rcases Finset.mem_union.mp hκm with hm | hm
              · exact hm
              · exact absurd (Finset.mem_singleton.mp hm) hκk
            · rintro ⟨r0, hr0, hr0i, hr0κ⟩
              have := mem_unique_of_sorted hInv.entSorted hmem hr0 hr0i
              subst this
              exact Finset.mem_union_left _ hr0κ
          · rw [if_neg hi]
        · exact grp_map_meta _ hInv.grpSorted
        · intro g2 hg2
          rcases grp_map_mem _ hg2 with ⟨g, hg, rfl⟩
          exact hInv.grpIdLt g hg
        · intro g2 hg2
          rcases grp_map_mem _ hg2 with ⟨g, hg, rfl⟩
          exact hInv.grpNonempty g hg
        · intro κ hκ
          exact grp_map_implicit _ (hInv.grpImplicit κ hκ)
        · intro g2 hg2
          rcases grp_map_mem _ hg2 with ⟨g, hg, rfl⟩
          show GrpOk _ g.2.1 (addBitG h.mask h.id k g)
          rw [addBitG]
          exact GrpOk_add_bit hInv.entSorted hmem hbit (hInv.grpOk g hg)
      | false =>
        have hbit : k ∈ h.mask := by simpa using hold
        have hst : (set_tag s h k false).st =
            { s with
              entities := mapRec s.entities h.id fun mm => mm.erase k
              groupings := s.groupings.map fun g =>
                (g.1, g.2.1, removeBitG h.mask h.id k g) } := by
          simp only [set_tag, hA, if_pos hold, if_false]
          rw [remove_bit_eq k hf]
          rfl
        rw [hst]
        clear hst hA
        refine ⟨?_, ?_, ?_, ?_, ?_, ?_, ?_, ?_, ?_, ?_⟩ <;> dsimp only
        · exact hInv.compLen
        · exact mapRec_sorted hInv.entSorted _ _
        · intro r2 hr2
          rcases mem_mapRec_elim hr2 with ⟨hrE, _⟩ | ⟨m0, hm0, rfl⟩
          · exact hInv.entFresh r2 hrE
          · exact hInv.entFresh ⟨h.id, m0⟩ hm0
        · exact hInv.storeSorted
        · intro κ hκ i
          have hgs : getStore
              { s with
                entities := mapRec s.entities h.id fun mm => mm.erase k
                groupings := s.groupings.map fun g =>
                  (g.1, g.2.1, removeBitG h.mask h.id k g) } κ = getStore s κ := rfl
          rw [hgs, exists_mapRec_iff hInv.entSorted hmem _ i κ,
            ← hInv.maskStore κ hκ i]
          by_cases hi : i = h.id
          · subst hi
            rw [if_pos rfl]
            have hκk : κ ≠ k := by omega
            constructor
            · intro hκm
              exact ⟨⟨h.id, h.mask⟩, hmem, rfl, (Finset.mem_erase.mp hκm).2⟩
            · rintro ⟨r0, hr0, hr0i, hr0κ⟩
              have := mem_unique_of_sorted hInv.entSorted hmem hr0 hr0i
              subst this
              exact Finset.mem_erase.mpr ⟨hκk, hr0κ⟩
          · rw [if_neg hi]
        · exact grp_map_meta _ hInv.grpSorted
        · intro g2 hg2
          rcases grp_map_mem _ hg2 with ⟨g, hg, rfl⟩
          exact hInv.grpIdLt g hg
        · intro g2 hg2
          rcases grp_map_mem _ hg2 with ⟨g, hg, rfl⟩
          exact hInv.grpNonempty g hg
        · intro κ hκ
          exact grp_map_implicit _ (hInv.grpImplicit κ hκ)
        · intro g2 hg2
          rcases grp_map_mem _ hg2 with ⟨g, hg, rfl⟩
          show GrpOk _ g.2.1 (removeBitG h.mask h.id k g)
          rw [removeBitG]
          exact GrpOk_remove_bit hInv.entSorted hmem hbit (hInv.grpOk g hg)
    · simpa only [set_tag, hA, if_neg hold] using hInv

theorem mem_eraseByKey_iff {α : Type} {keyf : α → Nat} {l : List α}
    (hs : KeySorted keyf l) (i0 : Nat) (y : α) :
    y ∈ eraseByKey keyf l i0 ↔ y ∈ l ∧ keyf y ≠ i0 := by
  constructor
  · intro hy
    refine ⟨mem_of_mem_eraseByKey hy, fun hk => ?_⟩
    exact not_mem_eraseByKey hs hk hy
  · rintro ⟨hy, hne⟩
    exact mem_eraseByKey_of_ne hy hne

theorem getD_range_map (f : Nat → Store) (n j : Nat) :
    (((List.range n).map f).getD j []) = if j < n then f j else [] := by
  rw [List.getD_eq_getElem?_getD, List.getElem?_map]
  by_cases hj : j < n
  · rw [List.getElem?_range hj, if_pos hj]
    rfl
  · rw [List.getElem?_eq_none (by simpa using Nat.le_of_not_lt hj), if_neg hj]
    rfl

/-- The per-grouping container update of `destroy_entity`. -/
def destroyG (m : Finset ℕ) (i : Nat)
    (g : Nat × Finset ℕ × List EntityRec) : List EntityRec :=
  if g.2.1 ∩ m = g.2.1 then eraseByKey EntityRec.id g.2.2 i else g.2.2

theorem Inv_destroy_entity {s : State} (hInv : Inv s) (h : Handle) :
    Inv (destroy_entity s h).st := by
  cases hA : assert_entity s h with
  | error e => simpa only [destroy_entity, hA] using hInv
  | ok r =>
    rcases assert_entity_ok hA with ⟨hf, rfl⟩
    have hmem : (⟨h.id, h.mask⟩ : EntityRec) ∈ s.entities :=
      (findByKey_eq_some _ _ _ hf).1
    have hst : (destroy_entity s h).st =
        { s with
          components := (List.range s.components.length).map fun k =>
            if k ∈ h.mask then eraseByKey Prod.fst (getStore s k) h.id
            else getStore s k
          entities := eraseByKey EntityRec.id s.entities h.id
          groupings := s.groupings.map fun g =>
            (g.1, g.2.1, destroyG h.mask h.id g) } := by
      simp only [destroy_entity, hA]
      congr 1
      refine List.map_congr_left fun g _ => ?_
      rw [destroyG]
      split_ifs <;> rfl
    rw [hst]
    clear hst hA
    refine ⟨?_, ?_, ?_, ?_, ?_, ?_, ?_, ?_, ?_, ?_⟩ <;> dsimp only
    · simpa using hInv.compLen
    · exact eraseByKey_sorted hInv.entSorted _
    · intro r2 hr2
      exact hInv.entFresh r2 (mem_of_mem_eraseByKey hr2)
    · intro κ
      have hgs : getStore
          { s with
            components := (List.range s.components.length).map fun k =>
              if k ∈ h.mask then eraseByKey Prod.fst (getStore s k) h.id
              else getStore s k
            entities := eraseByKey EntityRec.id s.entities h.id
            groupings := s.groupings.map fun g =>
              (g.1, g.2.1, destroyG h.mask h.id g) } κ =
          if κ < s.components.length then
            (if κ ∈ h.mask then eraseByKey Prod.fst (getStore s κ) h.id
             else getStore s κ)
          else [] := getD_range_map _ _ κ
      rw [hgs]
      split_ifs
      · exact eraseByKey_sorted (hInv.storeSorted κ) _
      · exact hInv.storeSorted κ
      · exact List.Pairwise.nil
    · intro κ hκ i
      have hgs : getStore
          { s with
            components := (List.range s.components.length).map fun k =>
              if k ∈ h.mask then eraseByKey Prod.fst (getStore s k) h.id
              else getStore s k
            entities := eraseByKey EntityRec.id s.entities h.id
            groupings := s.groupings.map fun g =>
              (g.1, g.2.1, destroyG h.mask h.id g) } κ =
          if κ < s.components.length then
            (if κ ∈ h.mask then eraseByKey Prod.fst (getStore s κ) h.id
             else getStore s κ)
          else [] := getD_range_map _ _ κ
      rw [hgs, if_pos (by rw [hInv.compLen]; exact hκ)]
      have hlhs : (∃ r2 ∈ eraseByKey EntityRec.id s.entities h.id,
          r2.id = i ∧ κ ∈ r2.mask) ↔
          (i ≠ h.id ∧ ∃ r0 ∈ s.entities, r0.id = i ∧ κ ∈ r0.mask) := by
        constructor
        · rintro ⟨r2, hr2, hri, hrκ⟩
          rcases (mem_eraseByKey_iff hInv.entSorted _ _).mp hr2 with ⟨hr2E, hr2ne⟩
          exact ⟨by omega, r2, hr2E, hri, hrκ⟩
        · rintro ⟨hne, r0, hr0, hri, hrκ⟩
          exact ⟨r0, (mem_eraseByKey_iff hInv.entSorted _ _).mpr
            ⟨hr0, by omega⟩, hri, hrκ⟩
      rw [hlhs]
      by_cases hκm : κ ∈ h.mask
      · rw [if_pos hκm, exists_key_eraseByKey (hInv.storeSorted κ),
          ← hInv.maskStore κ hκ i]
      · rw [if_neg hκm, ← hInv.maskStore κ hκ i]
        constructor
        · rintro ⟨_, hx⟩
          exact hx
        · rintro ⟨r0, hr0, hri, hrκ⟩
          refine ⟨?_, r0, hr0, hri, hrκ⟩
          intro hi
          have : r0 = ⟨h.id, h.mask⟩ :=
            mem_unique_of_sorted hInv.entSorted hmem hr0 (by omega)
          subst this
          exact hκm hrκ
    · exact grp_map_meta _ hInv.grpSorted
    · intro g2 hg2
      rcases grp_map_mem _ hg2 with ⟨g, hg, rfl⟩
      exact hInv.grpIdLt g hg
    · intro g2 hg2
      rcases grp_map_mem _ hg2 with ⟨g, hg, rfl⟩
      exact hInv.grpNonempty g hg
    · intro κ hκ
      exact grp_map_implicit _ (hInv.grpImplicit κ hκ)
    · intro g2 hg2
      rcases grp_map_mem _ hg2 with ⟨g, hg, rfl⟩
      show GrpOk _ g.2.1 (destroyG h.mask h.id g)
      have hgok := hInv.grpOk g hg
      rw [destroyG]
      split_ifs with hcond
      · refine ⟨eraseByKey_sorted hgok.sorted _, ?_, ?_⟩
        · intro rc hrc
          rcases (mem_eraseByKey_iff hgok.sorted _ _).mp hrc with ⟨hrcg, hrcne⟩
          rcases hgok.mirror rc hrcg with ⟨hrcE, hrcm⟩
          exact ⟨(mem_eraseByKey_iff hInv.entSorted _ _).mpr ⟨hrcE, hrcne⟩, hrcm⟩
        · intro r2 hr2 hrm
          rcases (mem_eraseByKey_iff hInv.entSorted _ _).mp hr2 with ⟨hr2E, hr2ne⟩
          exact (mem_eraseByKey_iff hgok.sorted _ _).mpr
            ⟨hgok.complete r2 hr2E hrm, hr2ne⟩
      · refine ⟨hgok.sorted, ?_, ?_⟩
        · intro rc hrc
          rcases hgok.mirror rc hrc with ⟨hrcE, hrcm⟩
          have hrcne : rc.id ≠ h.id := by
            intro hrci
            have : rc = ⟨h.id, h.mask⟩ :=
              mem_unique_of_sorted hInv.entSorted hmem hrcE hrci
            subst this
            exact hcond (Finset.inter_eq_left.mpr hrcm)
          exact ⟨(mem_eraseByKey_iff hInv.entSorted _ _).mpr ⟨hrcE, hrcne⟩, hrcm⟩
        · intro r2 hr2 hrm
          rcases (mem_eraseByKey_iff hInv.entSorted _ _).mp hr2 with ⟨hr2E, _⟩
          exact hgok.complete r2 hr2E hrm

theorem add_bit_meta (s : State) (h : Handle) (k : Nat) :
    (add_bit s h k).1.nComp = s.nComp ∧ (add_bit s h k).1.nTag = s.nTag := by
  rw [add_bit]
  cases findByKey EntityRec.id s.entities h.id <;> exact ⟨rfl, rfl⟩

theorem remove_bit_meta (s : State) (h : Handle) (k : Nat) :
    (remove_bit s h k).1.nComp = s.nComp ∧
      (remove_bit s h k).1.nTag = s.nTag := by
  rw [remove_bit]
  cases findByKey EntityRec.id s.entities h.id <;> exact ⟨rfl, rfl⟩

theorem add_component_meta (s : State) (h : Handle) (k v : Nat) :
    (add_component s h k v).st.nComp = s.nComp ∧
      (add_component s h k v).st.nTag = s.nTag := by
  rw [add_component]
  cases assert_entity s h with
  | error e => exact ⟨rfl, rfl⟩
  | ok r =>
    by_cases hbit : k ∈ h.mask
    · rw [if_pos hbit]
      cases findByKey Prod.fst (getStore s k) h.id <;> exact ⟨rfl, rfl⟩
    · rw [if_neg hbit]
      exact add_bit_meta _ _ _

theorem set_tag_meta (s : State) (h : Handle) (k : Nat) (b : Bool) :
    (set_tag s h k b).st.nComp = s.nComp ∧
      (set_tag s h k b).st.nTag = s.nTag := by
  rw [set_tag]
  cases assert_entity s h with
  | error e => exact ⟨rfl, rfl⟩
  | ok r =>
    by_cases hold : (decide (k ∈ h.mask)) ≠ b
    · rw [if_pos hold]
      cases b with
      | true =>
        rw [if_pos rfl]
        exact add_bit_meta _ _ _
      | false =>
        rw [if_neg (by simp)]
        exact remove_bit_meta _ _ _
    · rw [if_neg hold]
      exact ⟨rfl, rfl⟩

/-- Invariant bundled with the (constant) kind counts, for the folds inside
`create_entity`. -/
def InvM (N T : Nat) (s : State) : Prop := Inv s ∧ s.nComp = N ∧ s.nTag = T

theorem InvM_set_tag {N T : Nat} {s : State} (hi : InvM N T s) (h : Handle)
    {k : Nat} (b : Bool) (hk : N ≤ k) : InvM N T (set_tag s h k b).st := by
  rcases hi with ⟨hInv, hN, hT⟩
  rcases set_tag_meta s h k b with ⟨h1, h2⟩
  exact ⟨Inv_set_tag hInv h k b (by omega), by omega, by omega⟩

theorem InvM_add_component {N T : Nat} {s : State} (hi : InvM N T s)
    (h : Handle) {k : Nat} (v : Nat) (hk : k < N) :
    InvM N T (add_component s h k v).st := by
  rcases hi with ⟨hInv, hN, hT⟩
  rcases add_component_meta s h k v with ⟨h1, h2⟩
  exact ⟨Inv_add_component hInv h k v (by omega), by omega, by omega⟩

theorem InvM_fold_tags {N T : Nat} (tags : List Nat)
    (htags : ∀ t ∈ tags, N ≤ t) :
    ∀ (st : State) (hd : Handle) (ev : List Event), InvM N T st →
    InvM N T (tags.foldl
      (fun acc t =>
        let o := set_tag acc.1 acc.2.1 t true
        (o.st, o.hnd, acc.2.2 ++ o.evs)) (st, hd, ev)).1 := by
  induction tags with
  | nil => exact fun st hd ev hi => hi
  | cons t ts ih =>
    intro st hd ev hi
    refine ih (fun x hx => htags x (List.mem_cons_of_mem _ hx)) _ _ _ ?_
    exact InvM_set_tag hi hd true (htags t (List.mem_cons_self _ _))

theorem InvM_fold_comps {N T : Nat} (comps : List (Nat × Nat))
    (hcomps : ∀ c ∈ comps, c.1 < N) :
    ∀ (st : State) (hd : Handle) (ev : List Event), InvM N T st →
    InvM N T (comps.foldl
      (fun acc c =>
        let o := add_component acc.1 acc.2.1 c.1 c.2
        (o.st, o.hnd, acc.2.2 ++ o.evs)) (st, hd, ev)).1 := by
  induction comps with
  | nil => exact fun st hd ev hi => hi
  | cons c cs ih =>
    intro st hd ev hi
    refine ih (fun x hx => hcomps x (List.mem_cons_of_mem _ hx)) _ _ _ ?_
    exact InvM_add_component hi hd c.2 (hcomps c (List.mem_cons_self _ _))

/-- The raw entity insertion performed by `create_entity` before the tag and
component lists are applied. -/
theorem Inv_create_raw {s : State} (hInv : Inv s) :
    Inv { s with currentEntityId := s.currentEntityId + 1
                 entities := insertByKey EntityRec.id s.entities
                   ⟨s.currentEntityId, ∅⟩ } := by
  have hfresh : ∀ r ∈ s.entities, r.id ≠ s.currentEntityId := by
    intro r hr
    have := hInv.entFresh r hr
    omega
  refine ⟨hInv.compLen, ?_, ?_, hInv.storeSorted, ?_, hInv.grpSorted,
    hInv.grpIdLt, hInv.grpNonempty, hInv.grpImplicit, ?_⟩ <;> dsimp only
  · exact insertByKey_sorted hInv.entSorted _
  · intro r hr
    rcases mem_of_mem_insertByKey hr with rfl | hr
    · show s.currentEntityId < s.currentEntityId + 1
      omega
    · have := hInv.entFresh r hr
      omega
  · intro κ hκ i
    have hgs : getStore
        { s with currentEntityId := s.currentEntityId + 1
                 entities := insertByKey EntityRec.id s.entities
                   ⟨s.currentEntityId, ∅⟩ } κ = getStore s κ := rfl
    rw [hgs, ← hInv.maskStore κ hκ i]
    constructor
    · rintro ⟨r2, hr2, hri, hrκ⟩
      rcases mem_of_mem_insertByKey hr2 with rfl | hr2
      · simp at hrκ
      · exact ⟨r2, hr2, hri, hrκ⟩
    · rintro ⟨r0, hr0, hri, hrκ⟩
      exact ⟨r0, mem_insertByKey_of_mem _ hr0, hri, hrκ⟩
  · intro g hg
    have hgok := hInv.grpOk g hg
    refine ⟨hgok.sorted, ?_, ?_⟩
    · intro rc hrc
      rcases hgok.mirror rc hrc with ⟨hrcE, hrcm⟩
      exact ⟨mem_insertByKey_of_mem _ hrcE, hrcm⟩
    · intro r hr hrm
      rcases mem_of_mem_insertByKey hr with rfl | hr
      · rcases hInv.grpNonempty g hg with ⟨x, hx⟩
        have := hrm hx
        simp at this
      · exact hgok.complete r hr hrm

theorem Inv_create_entity {s : State} (hInv : Inv s) (tags : List Nat)
    (comps : List (Nat × Nat)) : Inv (create_entity s tags comps).st := by
  by_cases hg : (∀ t ∈ tags, s.nComp ≤ t ∧ t < s.nComp + s.nTag) ∧ tags.Nodup ∧
      (∀ c ∈ comps, c.1 < s.nComp) ∧ (comps.map Prod.fst).Nodup
  · have hst : (create_entity s tags comps).st =
        (comps.foldl
          (fun acc c =>
            let o := add_component acc.1 acc.2.1 c.1 c.2
            (o.st, o.hnd, acc.2.2 ++ o.evs))
          (tags.foldl
            (fun acc t =>
              let o := set_tag acc.1 acc.2.1 t true
              (o.st, o.hnd, acc.2.2 ++ o.evs))
            ({ s with currentEntityId := s.currentEntityId + 1
                      entities := insertByKey EntityRec.id s.entities
                        ⟨s.currentEntityId, ∅⟩ },
             ⟨s.currentEntityId, ∅⟩,
             if s.hasEventManager then [Event.entityCreated s.currentEntityId]
             else []))).1 := by
      rw [create_entity, if_pos hg]
    rw [hst]
    have h0 : InvM s.nComp s.nTag
        ({ s with currentEntityId := s.currentEntityId + 1
                  entities := insertByKey EntityRec.id s.entities
                    ⟨s.currentEntityId, ∅⟩ } : State) :=
      ⟨Inv_create_raw hInv, rfl, rfl⟩
    have h1 := InvM_fold_tags tags (fun t ht => (hg.1 t ht).1) _
      (⟨s.currentEntityId, ∅⟩ : Handle)
      (if s.hasEventManager then [Event.entityCreated s.currentEntityId]
       else []) h0
    rcases hacc : (tags.foldl
        (fun acc t =>
          let o := set_tag acc.1 acc.2.1 t true
          (o.st, o.hnd, acc.2.2 ++ o.evs))
        ({ s with currentEntityId := s.currentEntityId + 1
                  entities := insertByKey EntityRec.id s.entities
                    ⟨s.currentEntityId, ∅⟩ },
         (⟨s.currentEntityId, ∅⟩ : Handle),
         if s.hasEventManager then [Event.entityCreated s.currentEntityId]
         else [])) with ⟨st1, hd1, ev1⟩
    rw [hacc] at h1
    have h2 := InvM_fold_comps comps hg.2.2.1 st1 hd1 ev1 h1
    exact h2.1
  · rw [create_entity, if_neg hg]
    exact hInv

/-! ### Correctness of the query engine -/

theorem min_element_mem {α : Type} {cmp : α → α → Bool} {l : List α} {x : α}
    (h : min_element cmp l = some x) : x ∈ l := by
  cases l with
  | nil => simp [min_element] at h
  | cons a as =>
    rw [min_element] at h
    cases h
    induction as generalizing a with
    | nil => simp
    | cons y ys ih =>
      rw [List.foldl_cons]
      by_cases hc : cmp y a = true
      · rw [if_pos hc]
        rcases List.mem_cons.mp (ih y) with hh | hh
        · rw [hh]
          exact List.mem_cons_of_mem _ (List.mem_cons_self _ _)
        · exact List.mem_cons_of_mem _ (List.mem_cons_of_mem _ hh)
      · rw [if_neg hc]
        rcases List.mem_cons.mp (ih a) with hh | hh
        · rw [hh]
          exact List.mem_cons_self _ _
        · exact List.mem_cons_of_mem _ (List.mem_cons_of_mem _ hh)

theorem min_element_prop {α : Type} {P : α → Prop} {cmp : α → α → Bool}
    (h1 : ∀ a b, P a → ¬P b → cmp a b = true)
    (h2 : ∀ a b, ¬P a → P b → cmp a b = false)
    {l : List α} {x : α} (hmin : min_element cmp l = some x)
    (hex : ∃ a ∈ l, P a) : P x := by
  classical
  cases l with
  | nil => simp [min_element] at hmin
  | cons a as =>
    rw [min_element] at hmin
    cases hmin
    rcases hex with ⟨b, hb, hPb⟩
    have main : ∀ (ys : List α) (x0 : α), (P x0 ∨ ∃ c ∈ ys, P c) →
        P (ys.foldl (fun best y => if cmp y best then y else best) x0) := by
      intro ys
      induction ys with
      | nil =>
        rintro x0 (h | ⟨c, hc, _⟩)
        · exact h
        · simp at hc
      | cons y ys ih =>
        rintro x0 (h | ⟨c, hc, hPc⟩)
        · rw [List.foldl_cons]
          refine ih _ (Or.inl ?_)
          by_cases hPy : P y
          · by_cases hc : cmp y x0 <;> simp [hc, hPy, h]
          · rw [h2 y x0 hPy h]
            exact h
        · rcases List.mem_cons.mp hc with rfl | hc
          · rw [List.foldl_cons]
            refine ih _ (Or.inl ?_)
            by_cases hPx : P x0
            · by_cases hcc : cmp c x0 <;> simp [hcc, hPx, hPc]
            · rw [h1 c x0 hPc hPx]
              exact hPc
          · exact ih _ (Or.inr ⟨c, hc, hPc⟩)
    rcases List.mem_cons.mp hb with rfl | hb
    · exact main _ _ (Or.inl hPb)
    · exact main _ _ (Or.inr ⟨b, hb, hPb⟩)

/-- The candidate container chosen by `get_smallest_container` is the entity
set, a grouping snapshot, or (in asserted-impossible fallbacks) empty. -/
theorem get_smallest_container_cases (s : State) (kinds : List Nat) :
    (get_smallest_container s kinds).1 = s.entities ∨
    (∃ g ∈ s.groupings, (get_smallest_container s kinds).1 = g.2.2) ∨
    (get_smallest_container s kinds).1 = [] := by
  match kinds with
  | [] => exact Or.inl rfl
  | [k] =>
    rw [get_smallest_container]
    cases hf : findByKey Prod.fst s.groupings k with
    | none => exact Or.inr (Or.inr rfl)
    | some g => exact Or.inr (Or.inl ⟨g, (findByKey_eq_some _ _ _ hf).1, rfl⟩)
  | k1 :: k2 :: rest =>
    simp only [get_smallest_container]
    cases hm : min_element (smaller_candidate (make_key (k1 :: k2 :: rest)))
        s.groupings with
    | none => exact Or.inr (Or.inr rfl)
    | some g => exact Or.inr (Or.inl ⟨g, min_element_mem hm, rfl⟩)

theorem get_entities_mem {s : State} (hInv : Inv s) {kinds : List Nat}
    (hval : ∀ k ∈ kinds, k < s.nComp + s.nTag) (r : EntityRec) :
    r ∈ get_entities s kinds ↔ r ∈ s.entities ∧ make_key kinds ⊆ r.mask := by
  match kinds with
  | [] =>
    rw [get_entities]
    have : make_key [] = (∅ : Finset ℕ) := rfl
    rw [this]
    simp [get_smallest_container]
  | [k] =>
    rcases hInv.grpImplicit k (hval k (List.mem_cons_self _ _)) with ⟨gc, hgmem⟩
    have hf : findByKey Prod.fst s.groupings k = some (k, {k}, gc) :=
      findByKey_of_mem hInv.grpSorted hgmem rfl
    have hco : get_smallest_container s [k] = (gc, true) := by
      rw [get_smallest_container, hf]
    rw [get_entities, hco]
    have hgok := hInv.grpOk _ hgmem
    have hkey : make_key [k] = ({k} : Finset ℕ) := by
      simp [make_key]
    rw [if_pos rfl, hkey]
    constructor
    · intro hr
      exact hgok.mirror r hr
    · rintro ⟨hrE, hrm⟩
      exact hgok.complete r hrE hrm
  | k1 :: k2 :: rest =>
    set key := make_key (k1 :: k2 :: rest) with hkeydef
    rcases hInv.grpImplicit k1
      (hval k1 (List.mem_cons_self _ _)) with ⟨gc1, hg1mem⟩
    have hP1 : ({k1} : Finset ℕ) ∩ key = {k1} := by
      rw [Finset.inter_eq_left, Finset.singleton_subset_iff, hkeydef, make_key]
      simp
    cases hm : min_element (smaller_candidate key) s.groupings with
    | none =>
      exfalso
      rcases hgmem : s.groupings with _ | ⟨a, as⟩
      · rw [hgmem] at hg1mem
        simp at hg1mem
      · rw [hgmem, min_element] at hm
        simp at hm
    | some g =>
      have hgmem := min_element_mem hm
      have hgsub : g.2.1 ∩ key = g.2.1 := by
        refine @min_element_prop (Nat × Finset ℕ × List EntityRec)
          (fun a => a.2.1 ∩ key = a.2.1) (smaller_candidate key)
          ?_ ?_ s.groupings g hm ⟨(k1, {k1}, gc1), hg1mem, hP1⟩
        · intro a b hPa hPb
          rw [smaller_candidate, if_neg (by tauto)]
          simp [hPa, hPb]
        · intro a b hPa hPb
          rw [smaller_candidate, if_neg (by tauto)]
          simp [hPa]
      have hgok := hInv.grpOk g hgmem
      have hco : get_smallest_container s (k1 :: k2 :: rest) =
          (g.2.2, decide (g.2.1 = key)) := by
        simp only [get_smallest_container]
        rw [hm]
      rw [get_entities, hco]
      by_cases henc : g.2.1 = key
      · rw [if_pos (by simpa using henc)]
        constructor
        · intro hr
          rcases hgok.mirror r hr with ⟨hrE, hrm⟩
          exact ⟨hrE, henc ▸ hrm⟩
        · rintro ⟨hrE, hrm⟩
          exact hgok.complete r hrE (henc ▸ hrm)
      · rw [if_neg (by simpa using henc)]
        simp only [List.mem_filter, decide_eq_true_eq]
        constructor
        · rintro ⟨hr, hrk⟩
          rcases hgok.mirror r hr with ⟨hrE, _⟩
          exact ⟨hrE, Finset.inter_eq_right.mp hrk⟩
        · rintro ⟨hrE, hrm⟩
          have hgm : g.2.1 ⊆ r.mask :=
            Finset.Subset.trans (Finset.inter_eq_left.mp hgsub) hrm
          exact ⟨hgok.complete r hrE hgm, Finset.inter_eq_right.mpr hrm⟩

theorem get_entities_sorted {s : State} (hInv : Inv s) (kinds : List Nat) :
    KeySorted EntityRec.id (get_entities s kinds) := by
  have hbase : KeySorted EntityRec.id (get_smallest_container s kinds).1 := by
    rcases get_smallest_container_cases s kinds with hc | ⟨g, hg, hc⟩ | hc <;>
      rw [hc]
    · exact hInv.entSorted
    · exact (hInv.grpOk g hg).sorted
    · exact List.Pairwise.nil
  rw [get_entities]
  by_cases he : (get_smallest_container s kinds).2
  · rw [if_pos he]
    exact hbase
  · rw [if_neg he]
    exact List.Pairwise.sublist (List.filter_sublist _) hbase

theorem Inv_create_grouping {s s2 : State} {kinds : List Nat} {gid : Nat}
    (hInv : Inv s) (hok : create_grouping s kinds = Except.ok (s2, gid)) :
    Inv s2 := by
  by_cases hg : (∀ k ∈ kinds, k < s.nComp + s.nTag) ∧ kinds.Nodup ∧
      2 ≤ kinds.length
  · rw [create_grouping, if_pos hg] at hok
    simp only [Except.ok.injEq, Prod.mk.injEq] at hok
    rcases hok with ⟨hok, _⟩
    subst hok
    have hges := toFlatSet_eq_self (get_entities_sorted hInv kinds)
    refine ⟨hInv.compLen, hInv.entSorted, hInv.entFresh, hInv.storeSorted,
      hInv.maskStore, ?_, ?_, ?_, ?_, ?_⟩ <;> dsimp only
    · exact insertByKey_sorted hInv.grpSorted _
    · intro g2 hg2
      rcases mem_of_mem_insertByKey hg2 with rfl | hg2
      · show s.currentGroupingId < s.currentGroupingId + 1
        omega
      · have := hInv.grpIdLt g2 hg2
        omega
    · intro g2 hg2
      rcases mem_of_mem_insertByKey hg2 with rfl | hg2
      · show (make_key kinds).Nonempty
        rcases kinds with _ | ⟨a, as⟩
        · simp at hg
        · exact ⟨a, by simp [make_key]⟩
      · exact hInv.grpNonempty g2 hg2
    · intro κ hκ
      rcases hInv.grpImplicit κ hκ with ⟨gc, hgc⟩
      exact ⟨gc, mem_insertByKey_of_mem _ hgc⟩
    · intro g2 hg2
      rcases mem_of_mem_insertByKey hg2 with rfl | hg2
      · show GrpOk s.entities (make_key kinds)
          (toFlatSet (get_entities s kinds))
        rw [hges]
        refine ⟨get_entities_sorted hInv kinds, ?_, ?_⟩
        · intro rc hrc
          exact (get_entities_mem hInv hg.1 rc).mp hrc
        · intro r hr hrm
          exact (get_entities_mem hInv hg.1 r).mpr ⟨hr, hrm⟩
      · exact hInv.grpOk g2 hg2
  · rw [create_grouping, if_neg hg] at hok
    cases hok

theorem Inv_destroy_grouping {s : State} (hInv : Inv s) (gid : Nat)
    (hge : s.nComp + s.nTag ≤ gid) : Inv (destroy_grouping s gid) := by
  refine ⟨hInv.compLen, hInv.entSorted, hInv.entFresh, hInv.storeSorted,
    hInv.maskStore, ?_, ?_, ?_, ?_, ?_⟩ <;> dsimp only [destroy_grouping]
  · exact eraseByKey_sorted hInv.grpSorted _
  · intro g2 hg2
    exact hInv.grpIdLt g2 (mem_of_mem_eraseByKey hg2)
  · intro g2 hg2
    exact hInv.grpNonempty g2 (mem_of_mem_eraseByKey hg2)
  · intro κ hκ
    rcases hInv.grpImplicit κ hκ with ⟨gc, hgc⟩
    exact ⟨gc, mem_eraseByKey_of_ne hgc (by show κ ≠ gid; omega)⟩
  · intro g2 hg2
    exact hInv.grpOk g2 (mem_of_mem_eraseByKey hg2)

theorem Inv_set_event_manager {s : State} (hInv : Inv s) :
    Inv (set_event_manager s) :=
  ⟨hInv.compLen, hInv.entSorted, hInv.entFresh, hInv.storeSorted,
    hInv.maskStore, hInv.grpSorted, hInv.grpIdLt, hInv.grpNonempty,
    hInv.grpImplicit, hInv.grpOk⟩

theorem Inv_clear_event_manager {s : State} (hInv : Inv s) :
    Inv (clear_event_manager s) :=
  ⟨hInv.compLen, hInv.entSorted, hInv.entFresh, hInv.storeSorted,
    hInv.maskStore, hInv.grpSorted, hInv.grpIdLt, hInv.grpNonempty,
    hInv.grpImplicit, hInv.grpOk⟩

theorem Inv_step {s s2 : State} (hs : Step s s2) (hInv : Inv s) : Inv s2 := by
  cases hs with
  | create tags comps => exact Inv_create_entity hInv tags comps
  | addComp h k v hk => exact Inv_add_component hInv h k v hk
  | removeComp h k hk => exact Inv_remove_component hInv h k hk
  | setTag h k b hk1 hk2 => exact Inv_set_tag hInv h k b hk1
  | destroy h => exact Inv_destroy_entity hInv h
  | createGrouping kinds gid hok hok2 => exact Inv_create_grouping hInv hok2
  | destroyGrouping gid hg => exact Inv_destroy_grouping hInv gid hg
  | setEM => exact Inv_set_event_manager hInv
  | clearEM => exact Inv_clear_event_manager hInv

theorem Reachable_Inv {s : State} (h : Reachable s) : Inv s := by
  rcases h with ⟨nc, nt, hsteps⟩
  induction hsteps with
  | refl => exact Inv_init nc nt
  | tail hs hstep ih => exact Inv_step hstep ih

/-! ### Concrete states used by the witnesses: a registry with two component
kinds (0, 1) and one tag kind (2), one entity created with both components. -/

def wState0 : State := init 2 1

def wOut1 : OpOut Handle := create_entity wState0 [] [(0, 5), (1, 6)]

def wState1 : State := wOut1.st

def wHandle : Handle := wOut1.hnd

def wRec : EntityRec := ⟨0, {0, 1}⟩

theorem wReach1 : Reachable wState1 :=
  ⟨2, 1, Relation.ReflTransGen.single (Step.create wState0 [] [(0, 5), (1, 6)])⟩

/-! ### Claim theorems -/

/-- C1: in every reachable registry state, for every existing grouping
`(required-mask, snapshot-set)` and every live entity record, the record is
in the grouping's snapshot exactly when `(record.mask & required-mask) ==
required-mask`; reachability covers every sequence of `create_entity`,
`add_component`, `remove_component`, `set_tag` and `destroy_entity` (and of
the remaining registry operations). -/
theorem grouping_membership_invariant {s : State} (hr : Reachable s) :
    ∀ g ∈ s.groupings, ∀ r ∈ s.entities,
      (r ∈ g.2.2 ↔ r.mask ∩ g.2.1 = g.2.1) := by
  have hInv := Reachable_Inv hr
  intro g hg r hrE
  constructor
  · intro hrc
    exact Finset.inter_eq_right.mpr ((hInv.grpOk g hg).mirror r hrc).2
  · intro hsub
    exact (hInv.grpOk g hg).complete r hrE (Finset.inter_eq_right.mp hsub)

theorem grouping_membership_invariant_witness :
    wRec ∈ ((0, ({0} : Finset ℕ), [wRec]) : Nat × Finset ℕ × List EntityRec).2.2 ↔
      wRec.mask ∩ ((0, ({0} : Finset ℕ), [wRec]) :
        Nat × Finset ℕ × List EntityRec).2.1 =
      ((0, ({0} : Finset ℕ), [wRec]) : Nat × Finset ℕ × List EntityRec).2.1 :=
  grouping_membership_invariant wReach1 (0, {0}, [wRec]) (by decide) wRec
    (by decide)

/-- C2: in every reachable registry state, for every live entity and every
component kind, the kind's bit is set in the live mask exactly when the
entity's identity is in that kind's store. -/
theorem mask_store_consistency {s : State} (hr : Reachable s) :
    ∀ r ∈ s.entities, ∀ k, k < s.nComp →
      (k ∈ r.mask ↔ (findByKey Prod.fst (getStore s k) r.id).isSome = true) := by
  have hInv := Reachable_Inv hr
  intro r hrE k hk
  rw [findByKey_isSome, ← hInv.maskStore k hk r.id]
  constructor
  · intro hkm
    exact ⟨r, hrE, rfl, hkm⟩
  · rintro ⟨r0, hr0, hr0i, hr0k⟩
    have : r0 = ⟨r.id, r.mask⟩ :=
      mem_unique_of_sorted hInv.entSorted hrE hr0 hr0i
    subst this
    exact hr0k

theorem mask_store_consistency_witness :
    (0 ∈ wRec.mask ↔
      (findByKey Prod.fst (getStore wState1 0) wRec.id).isSome = true) :=
  mask_store_consistency wReach1 wRec (by decide) 0 (by decide)

/-- C3: in every reachable registry state, for every valid duplicate-free
query kind list, `get_entities` returns exactly the live entities whose
mask is a superset of the union mask of the queried kinds — as a duplicate
free (id-sorted) container — whichever candidate container
`get_smallest_container` selected. -/
theorem get_entities_exact {s : State} (hr : Reachable s) {kinds : List Nat}
    (hnd : kinds.Nodup) (hval : ∀ k ∈ kinds, k < s.nComp + s.nTag) :
    (∀ r, r ∈ get_entities s kinds ↔
      r ∈ s.entities ∧ make_key kinds ⊆ r.mask) ∧
    KeySorted EntityRec.id (get_entities s kinds) := by
  have hInv := Reachable_Inv hr
  exact ⟨get_entities_mem hInv hval, get_entities_sorted hInv kinds⟩

theorem get_entities_exact_witness :
    (∀ r, r ∈ get_entities wState1 [0, 1] ↔
      r ∈ wState1.entities ∧ make_key [0, 1] ⊆ r.mask) ∧
    KeySorted EntityRec.id (get_entities wState1 [0, 1]) :=
  get_entities_exact wReach1 (by decide) (by decide)

/-- An `OK` status yields the record agreeing with the handle. -/
theorem assert_entity_of_ok {s : State} {h : Handle}
    (hst : (get_entity_and_status s h).2 = entity_status.OK) :
    assert_entity s h = Except.ok ⟨h.id, h.mask⟩ ∧
    findByKey EntityRec.id s.entities h.id = some ⟨h.id, h.mask⟩ := by
  rcases ges_cases s h with ⟨hf, hges⟩ | ⟨r0, hf, ⟨hm, hges⟩ | ⟨hm, hges⟩⟩ <;>
      rw [hges] at hst
  · cases hst
  · cases hst
  · have hr0 : r0 = ⟨h.id, h.mask⟩ := by
      have hid := (findByKey_eq_some _ _ _ hf).2
      cases r0
      simp_all
    subst hr0
    refine ⟨?_, hf⟩
    rw [assert_entity, hges]

/-- C7: every §4.2 operation on a `DELETED` or `STALE` handle fails with
`BAD_ENTITY` leaving state, handle and event log untouched; `assert_entity`
hands out the authoritative record only on `OK`; and `get_component` on an
`OK` handle raises `INVALID_COMPONENT` exactly when the kind's bit is unset,
mutating nothing and emitting nothing. -/
theorem section42_error_handling (s : State) (h : Handle) (k v : Nat)
    (b : Bool) :
    ((get_entity_and_status s h).2 = entity_status.DELETED ∨
      (get_entity_and_status s h).2 = entity_status.STALE →
      add_component s h k v =
        ⟨Except.error error_code.BAD_ENTITY, s, h, []⟩ ∧
      remove_component s h k =
        ⟨Except.error error_code.BAD_ENTITY, s, h, []⟩ ∧
      get_component s h k = ⟨Except.error error_code.BAD_ENTITY, s, h, []⟩ ∧
      set_tag s h k b = ⟨Except.error error_code.BAD_ENTITY, s, h, []⟩) ∧
    (∀ r, assert_entity s h = Except.ok r →
      (get_entity_and_status s h).2 = entity_status.OK ∧
      findByKey EntityRec.id s.entities h.id = some r) ∧
    ((get_entity_and_status s h).2 = entity_status.OK →
      (get_component s h k).st = s ∧ (get_component s h k).hnd = h ∧
      (get_component s h k).evs = [] ∧
      ((get_component s h k).res = Except.error error_code.INVALID_COMPONENT ↔
        k ∉ h.mask)) := by
  refine ⟨?_, ?_, ?_⟩
  · intro hst
    have hA := assert_entity_of_status s h hst
    exact ⟨by rw [add_component, hA], by rw [remove_component, hA],
      by rw [get_component, hA], by rw [set_tag, hA]⟩
  · intro r hA
    rcases assert_entity_ok hA with ⟨hf, rfl⟩
    refine ⟨?_, hf⟩
    simp [get_entity_and_status, hf]
  · intro hst
    rcases assert_entity_of_ok hst with ⟨hA, _⟩
    by_cases hbit : k ∈ h.mask
    · rw [get_component, hA, if_pos hbit]
      simp [hbit]
    · rw [get_component, hA, if_neg hbit]
      simp [hbit]

theorem section42_error_handling_witness :
    add_component wState1 (⟨7, ∅⟩ : Handle) 0 5 =
      ⟨Except.error error_code.BAD_ENTITY, wState1, ⟨7, ∅⟩, []⟩ ∧
    get_component wState1 (⟨7, ∅⟩ : Handle) 0 =
      ⟨Except.error error_code.BAD_ENTITY, wState1, ⟨7, ∅⟩, []⟩ :=
  have h := (section42_error_handling wState1 ⟨7, ∅⟩ 0 5 true).1
    (Or.inl (by decide))
  ⟨h.1, h.2.2.1⟩

/-- C8: `sync` on a deleted identity returns `false` with the handle
untouched; otherwise it copies the live mask into the handle and returns
`true`, after which the handle's status is `OK`.  `sync` is a `const`
member of the manager: in the embedding it returns no registry state at
all, so the entity set, the stores and the groupings are untouched by
construction. -/
theorem sync_spec (s : State) (h : Handle) :
    (findByKey EntityRec.id s.entities h.id = none →
      (get_entity_and_status s h).2 = entity_status.DELETED ∧
      sync s h = (false, h)) ∧
    (∀ r, findByKey EntityRec.id s.entities h.id = some r →
      sync s h = (true, ⟨h.id, r.mask⟩) ∧
      (get_entity_and_status s (⟨h.id, r.mask⟩ : Handle)).2 =
        entity_status.OK) := by
  constructor
  · intro hf
    have hges : get_entity_and_status s h = (none, entity_status.DELETED) := by
      rw [get_entity_and_status, hf]
    constructor
    · rw [hges]
    · rw [sync, hges]
  · intro r hf
    have hid : r.id = h.id := (findByKey_eq_some _ _ _ hf).2
    have hf2 : findByKey EntityRec.id s.entities
        (Handle.id ⟨h.id, r.mask⟩) = some r := hf
    have hges2 : get_entity_and_status s (⟨h.id, r.mask⟩ : Handle) =
        (some r, entity_status.OK) := by
      simp [get_entity_and_status, hf2]
    refine ⟨?_, by rw [hges2]⟩
    rw [sync]
    by_cases hm : h.mask ≠ r.mask
    · have hges : get_entity_and_status s h = (some r, entity_status.STALE) := by
        simp [get_entity_and_status, hf, hm]
      rw [hges]
    · have heq : h.mask = r.mask := not_ne_iff.mp hm
      have hges : get_entity_and_status s h = (some r, entity_status.OK) := by
        simp [get_entity_and_status, hf, heq]
      rw [hges]

theorem sync_spec_witness :
    sync wState1 (⟨0, ∅⟩ : Handle) = (true, ⟨0, wRec.mask⟩) ∧
    (get_entity_and_status wState1 (⟨(0 : Nat), wRec.mask⟩ : Handle)).2 =
      entity_status.OK :=
  (sync_spec wState1 ⟨0, ∅⟩).2 wRec (by decide)

/-- C5: `add_component` on an `OK` handle.  With the bit already set it
returns the stored value paired with `false`, ignoring the supplied
constructor value `v`, with no state, handle, or event effect.  With the
bit unset it returns `(v, true)`; in the post state the value is in the
kind's store, the bit is set on the authoritative record and on the
caller's handle, and every grouping contains the entity exactly when its
required mask is now covered; the `component_added` event (emitted only
when a sink is attached) carries the value that the post state — the state
at broadcast time, nothing being mutated after the broadcast — already
stores under the already-set bit. -/
theorem add_component_spec {s : State} (hr : Reachable s) (h : Handle)
    (k v : Nat) (hk : k < s.nComp)
    (hok : (get_entity_and_status s h).2 = entity_status.OK) :
    (k ∈ h.mask →
      (∃ v0, findByKey Prod.fst (getStore s k) h.id = some (h.id, v0) ∧
        add_component s h k v = ⟨Except.ok (v0, false), s, h, []⟩)) ∧
    (k ∉ h.mask →
      (add_component s h k v).res = Except.ok (v, true) ∧
      findByKey Prod.fst (getStore (add_component s h k v).st k) h.id =
        some (h.id, v) ∧
      findByKey EntityRec.id (add_component s h k v).st.entities h.id =
        some ⟨h.id, h.mask ∪ {k}⟩ ∧
      (add_component s h k v).hnd = ⟨h.id, h.mask ∪ {k}⟩ ∧
      ((add_component s h k v).evs =
        if s.hasEventManager then [Event.componentAdded h.id k v] else []) ∧
      (∀ g ∈ (add_component s h k v).st.groupings,
        (⟨h.id, h.mask ∪ {k}⟩ : EntityRec) ∈ g.2.2 ↔ g.2.1 ⊆ h.mask ∪ {k})) := by
  have hInv := Reachable_Inv hr
  rcases assert_entity_of_ok hok with ⟨hA, hf⟩
  have hmem : (⟨h.id, h.mask⟩ : EntityRec) ∈ s.entities :=
    (findByKey_eq_some _ _ _ hf).1
  have hklen : k < s.components.length := by
    rw [hInv.compLen]
    exact hk
  constructor
  · intro hbit
    have hex : ∃ p ∈ getStore s k, p.1 = h.id :=
      (hInv.maskStore k hk h.id).mp ⟨⟨h.id, h.mask⟩, hmem, rfl, hbit⟩
    rcases hex with ⟨p, hp, hpi⟩
    have hfind : findByKey Prod.fst (getStore s k) h.id = some p :=
      findByKey_of_mem (hInv.storeSorted k) hp hpi
    refine ⟨p.2, ?_, ?_⟩
    · have : p = (h.id, p.2) := by
        cases p
        simp_all
      rwa [← this]
    · rw [add_component, hA, if_pos hbit, hfind]
  · intro hbit
    have hfresh : ∀ p ∈ getStore s k, p.1 ≠ h.id := by
      intro p hp hpi
      rcases (hInv.maskStore k hk h.id).mpr ⟨p, hp, hpi⟩ with ⟨r0, hr0, hr0i, hr0k⟩
      have := mem_unique_of_sorted hInv.entSorted hmem hr0 hr0i
      subst this
      exact hbit hr0k
    have hf1 : findByKey EntityRec.id
        (setStore s k (insertByKey Prod.fst (getStore s k) (h.id, v))).entities
        h.id = some ⟨h.id, h.mask⟩ := hf
    have hout : add_component s h k v =
        ⟨Except.ok (v, true),
         { s with
           components := s.components.set k
             (insertByKey Prod.fst (getStore s k) (h.id, v))
           entities := mapRec s.entities h.id fun mm => mm ∪ {k}
           groupings := s.groupings.map fun g =>
             (g.1, g.2.1, addBitG h.mask h.id k g) },
         ⟨h.id, h.mask ∪ {k}⟩,
         if s.hasEventManager then [Event.componentAdded h.id k v] else []⟩ := by
      simp only [add_component, hA, if_neg hbit]
      rw [add_bit_eq k hf1]
      rfl
    rw [hout]
    refine ⟨rfl, ?_, ?_, rfl, rfl, ?_⟩
    · have hgs : getStore
          { s with
            components := s.components.set k
              (insertByKey Prod.fst (getStore s k) (h.id, v))
            entities := mapRec s.entities h.id fun mm => mm ∪ {k}
            groupings := s.groupings.map fun g =>
              (g.1, g.2.1, addBitG h.mask h.id k g) } k =
          insertByKey Prod.fst (getStore s k) (h.id, v) := getD_set_self hklen _
      rw [hgs]
      exact findByKey_of_mem (insertByKey_sorted (hInv.storeSorted k) _)
        (self_mem_insertByKey hfresh) rfl
    · show findByKey EntityRec.id
        (mapRec s.entities h.id fun mm => mm ∪ {k}) h.id = _
      rw [findByKey_mapRec_self, hf]
      rfl
    · intro g2 hg2
      rcases grp_map_mem _ hg2 with ⟨g, hg, rfl⟩
      have hgok2 : GrpOk (mapRec s.entities h.id fun mm => mm ∪ {k}) g.2.1
          (addBitG h.mask h.id k g) := by
        rw [addBitG]
        exact GrpOk_add_bit hInv.entSorted hmem hbit (hInv.grpOk g hg)
      constructor
      · intro hmem2
        exact (hgok2.mirror _ hmem2).2
      · intro hsub
        exact hgok2.complete _ (mem_mapRec_self _ hmem) hsub

theorem add_component_spec_witness :
    ((create_entity wState0 [] [(0, 5)]).hnd.id = 0 ∧
      (create_entity wState0 [] [(0, 5)]).hnd.mask = {0}) ∧
    (add_component (create_entity wState0 [] [(0, 5)]).st
        (create_entity wState0 [] [(0, 5)]).hnd 1 9).res =
      Except.ok (9, true) ∧
    (add_component (create_entity wState0 [] [(0, 5)]).st
        (create_entity wState0 [] [(0, 5)]).hnd 1 9).hnd =
      ⟨(create_entity wState0 [] [(0, 5)]).hnd.id,
        (create_entity wState0 [] [(0, 5)]).hnd.mask ∪ {1}⟩ :=
  ⟨by decide,
   ((add_component_spec
      ⟨2, 1, Relation.ReflTransGen.single (Step.create wState0 [] [(0, 5)])⟩
      (create_entity wState0 [] [(0, 5)]).hnd 1 9 (by decide) (by decide)).2
      (by decide)).1,
   (((add_component_spec
      ⟨2, 1, Relation.ReflTransGen.single (Step.create wState0 [] [(0, 5)])⟩
      (create_entity wState0 [] [(0, 5)]).hnd 1 9 (by decide) (by decide)).2
      (by decide)).2.2.2.1 : _)⟩

/-- C10: `add_component` on an `OK` handle whose bit is already set only
returns the existing stored value with `false`: the whole `OpOut` — result,
post state (entity set, stores, masks, groupings), handle, and event list —
equals `⟨ok (v0, false), s, h, []⟩`, the constructor value `v` unused and
no `component_added` event emitted even when `hasEventManager` is set. -/
theorem add_component_existing_frame {s : State} (hr : Reachable s)
    (h : Handle) (k v : Nat) (hk : k < s.nComp)
    (hok : (get_entity_and_status s h).2 = entity_status.OK)
    (hbit : k ∈ h.mask) :
    ∃ v0, findByKey Prod.fst (getStore s k) h.id = some (h.id, v0) ∧
      add_component s h k v = ⟨Except.ok (v0, false), s, h, []⟩ := by
  have hInv := Reachable_Inv hr
  rcases assert_entity_of_ok hok with ⟨hA, hf⟩
  have hmem : (⟨h.id, h.mask⟩ : EntityRec) ∈ s.entities :=
    (findByKey_eq_some _ _ _ hf).1
  rcases (hInv.maskStore k hk h.id).mp ⟨⟨h.id, h.mask⟩, hmem, rfl, hbit⟩ with
    ⟨p, hp, hpi⟩
  have hfind : findByKey Prod.fst (getStore s k) h.id = some p :=
    findByKey_of_mem (hInv.storeSorted k) hp hpi
  refine ⟨p.2, ?_, ?_⟩
  · have : p = (h.id, p.2) := by
      cases p
      simp_all
    rwa [← this]
  · rw [add_component, hA, if_pos hbit, hfind]

theorem add_component_existing_frame_witness :
    ∃ v0, findByKey Prod.fst (getStore (set_event_manager wState1) 0)
        wHandle.id = some (wHandle.id, v0) ∧
      add_component (set_event_manager wState1) wHandle 0 77 =
        ⟨Except.ok (v0, false), set_event_manager wState1, wHandle, []⟩ :=
  add_component_existing_frame
    ⟨2, 1, Relation.ReflTransGen.tail
      (Relation.ReflTransGen.single (Step.create wState0 [] [(0, 5), (1, 6)]))
      (Step.setEM wState1)⟩
    wHandle 0 77 (by decide) (by decide) (by decide)

/-- C9: on an `OK` handle, `remove_component` of an absent kind and
`set_tag` to the currently-held value are complete no-ops (result only, no
state, handle or event effect), and both operations are idempotent: the
second application leaves state and handle of the first unchanged and
emits nothing. -/
theorem noop_idempotence {s : State} (hr : Reachable s) (h : Handle)
    (k kt : Nat) (b : Bool) (hk : k < s.nComp) (hkt1 : s.nComp ≤ kt)
    (hkt2 : kt < s.nComp + s.nTag)
    (hok : (get_entity_and_status s h).2 = entity_status.OK) :
    (k ∉ h.mask → remove_component s h k = ⟨Except.ok false, s, h, []⟩) ∧
    (set_tag s h kt (decide (kt ∈ h.mask)) =
      ⟨Except.ok (decide (kt ∈ h.mask)), s, h, []⟩) ∧
    (remove_component (remove_component s h k).st
        (remove_component s h k).hnd k =
      ⟨Except.ok false, (remove_component s h k).st,
        (remove_component s h k).hnd, []⟩) ∧
    (set_tag (set_tag s h kt b).st (set_tag s h kt b).hnd kt b =
      ⟨Except.ok b, (set_tag s h kt b).st, (set_tag s h kt b).hnd, []⟩) := by
  rcases assert_entity_of_ok hok with ⟨hA, hf⟩
  have hnoopR : k ∉ h.mask →
      remove_component s h k = ⟨Except.ok false, s, h, []⟩ := by
    intro hbit
    rw [remove_component, hA, if_neg hbit]
  have hnoopT : set_tag s h kt (decide (kt ∈ h.mask)) =
      ⟨Except.ok (decide (kt ∈ h.mask)), s, h, []⟩ := by
    rw [set_tag, hA, if_neg (by simp)]
  refine ⟨hnoopR, hnoopT, ?_, ?_⟩
  · by_cases hbit : k ∈ h.mask
    · have hf1 : findByKey EntityRec.id
          (setStore s k (eraseByKey Prod.fst (getStore s k) h.id)).entities
          h.id = some ⟨h.id, h.mask⟩ := hf
      have hout : remove_component s h k =
          ⟨Except.ok true,
           { s with
             components := s.components.set k
               (eraseByKey Prod.fst (getStore s k) h.id)
             entities := mapRec s.entities h.id fun mm => mm.erase k
             groupings := s.groupings.map fun g =>
               (g.1, g.2.1, removeBitG h.mask h.id k g) },
           ⟨h.id, h.mask.erase k⟩,
           if s.hasEventManager then
             [Event.componentRemoved h.id k
               (((findByKey Prod.fst (getStore s k) h.id).getD (0, 0)).2)]
           else []⟩ := by
        simp only [remove_component, hA, if_pos hbit]
        rw [remove_bit_eq k hf1]
        rfl
      rw [hout]
      have hf2 : findByKey EntityRec.id
          (mapRec s.entities h.id fun mm => mm.erase k) h.id =
          some ⟨h.id, h.mask.erase k⟩ := by
        rw [findByKey_mapRec_self, hf]
        rfl
      have hges2 : get_entity_and_status
          ({ s with
             components := s.components.set k
               (eraseByKey Prod.fst (getStore s k) h.id)
             entities := mapRec s.entities h.id fun mm => mm.erase k
             groupings := s.groupings.map fun g =>
               (g.1, g.2.1, removeBitG h.mask h.id k g) } : State)
          (⟨h.id, h.mask.erase k⟩ : Handle) =
          (some ⟨h.id, h.mask.erase k⟩, entity_status.OK) := by
        simp [get_entity_and_status, hf2]
      have hA2 := (assert_entity_of_ok (by rw [hges2])).1
      simp only [remove_component, hA2]
      rw [if_neg (show k ∉ (⟨h.id, h.mask.erase k⟩ : Handle).mask by simp)]
    · rw [hnoopR hbit, hnoopR hbit]
  · by_cases hold : (decide (kt ∈ h.mask)) ≠ b
    · cases b with
      | true =>
        have hbit : kt ∉ h.mask := by simpa using hold
        have hout : set_tag s h kt true =
            ⟨Except.ok (decide (kt ∈ h.mask)),
             { s with
               entities := mapRec s.entities h.id fun mm => mm ∪ {kt}
               groupings := s.groupings.map fun g =>
                 (g.1, g.2.1, addBitG h.mask h.id kt g) },
             ⟨h.id, h.mask ∪ {kt}⟩,
             if s.hasEventManager then [Event.tagAdded h.id kt] else []⟩ := by
          simp only [set_tag, hA, if_pos hold, if_true]
          rw [add_bit_eq kt hf]
        rw [hout]
        have hf2 : findByKey EntityRec.id
            (mapRec s.entities h.id fun mm => mm ∪ {kt}) h.id =
            some ⟨h.id, h.mask ∪ {kt}⟩ := by
          rw [findByKey_mapRec_self, hf]
          rfl
        have hges2 : get_entity_and_status
            ({ s with
               entities := mapRec s.entities h.id fun mm => mm ∪ {kt}
               groupings := s.groupings.map fun g =>
                 (g.1, g.2.1, addBitG h.mask h.id kt g) } : State)
            (⟨h.id, h.mask ∪ {kt}⟩ : Handle) =
            (some ⟨h.id, h.mask ∪ {kt}⟩, entity_status.OK) := by
          simp [get_entity_and_status, hf2]
        have hA2 := (assert_entity_of_ok (by rw [hges2])).1
        simp only [set_tag, hA2]
        rw [if_neg (show ¬(decide
          (kt ∈ (⟨h.id, h.mask ∪ {kt}⟩ : Handle).mask) ≠ true) by simp)]
        simp
      | false =>
        have hbit : kt ∈ h.mask := by simpa using hold
        have hout : set_tag s h kt false =
            ⟨Except.ok (decide (kt ∈ h.mask)),
             { s with
               entities := mapRec s.entities h.id fun mm => mm.erase kt
               groupings := s.groupings.map fun g =>
                 (g.1, g.2.1, removeBitG h.mask h.id kt g) },
             ⟨h.id, h.mask.erase kt⟩,
             if s.hasEventManager then [Event.tagRemoved h.id kt] else []⟩ := by
          simp only [set_tag, hA, if_pos hold, if_false]
          rw [remove_bit_eq kt hf]
          rfl
        rw [hout]
        have hf2 : findByKey EntityRec.id
            (mapRec s.entities h.id fun mm => mm.erase kt) h.id =
            some ⟨h.id, h.mask.erase kt⟩ := by
          rw [findByKey_mapRec_self, hf]
          rfl
        have hges2 : get_entity_and_status
            ({ s with
               entities := mapRec s.entities h.id fun mm => mm.erase kt
               groupings := s.groupings.map fun g =>
                 (g.1, g.2.1, removeBitG h.mask h.id kt g) } : State)
            (⟨h.id, h.mask.erase kt⟩ : Handle) =
            (some ⟨h.id, h.mask.erase kt⟩, entity_status.OK) := by
          simp [get_entity_and_status, hf2]
        have hA2 := (assert_entity_of_ok (by rw [hges2])).1
        simp only [set_tag, hA2]
        rw [if_neg (show ¬(decide
          (kt ∈ (⟨h.id, h.mask.erase kt⟩ : Handle).mask) ≠ false) by simp)]
        simp
    · have hb : b = decide (kt ∈ h.mask) := by
        rcases Bool.eq_false_or_eq_true (decide (kt ∈ h.mask)) with hx | hx <;>
          simp_all
      subst hb
      rw [hnoopT, hnoopT]

theorem filterMap_ite {α β : Type} (p : α → Prop) [DecidablePred p]
    (g : α → β) (l : List α) :
    (l.filterMap fun x => if p x then some (g x) else none) =
      (l.filter fun x => decide (p x)).map g := by
  induction l with
  | nil => rfl
  | cons x xs ih =>
    by_cases hx : p x
    · rw [List.filterMap_cons, List.filter_cons]
      simp [hx, ih]
    · rw [List.filterMap_cons, List.filter_cons]
      simp [hx, ih]

/-- `get_entity_and_status` never reports `UNINITIALIZED`: a non-`OK`
status through the manager is `DELETED` or `STALE`. -/
theorem status_not_ok {s : State} {h : Handle}
    (hst : (get_entity_and_status s h).2 ≠ entity_status.OK) :
    (get_entity_and_status s h).2 = entity_status.DELETED ∨
      (get_entity_and_status s h).2 = entity_status.STALE := by
  rcases ges_cases s h with ⟨hf, hges⟩ | ⟨r0, hf, ⟨hm, hges⟩ | ⟨hm, hges⟩⟩ <;>
    rw [hges] at hst ⊢ <;> simp_all

/-- C6: `destroy_entity` on a non-`OK` handle fails with `BAD_ENTITY` and
does nothing.  On an `OK` handle it succeeds; with a sink attached its
event log is the `entity_destroyed` event, then one `component_removed`
event per set component bit in kind-store (tuple) order carrying the stored
value, then one `tag_removed` event per set tag bit in tag order; and the
identity is gone from the entity set, from every kind store, and from every
grouping (it is erased exactly from the groupings it matched and was never
in the others).  The state mutations happen after all events, in the
code's order: stores, then groupings, then the entity set. -/
theorem destroy_entity_spec {s : State} (hr : Reachable s) (h : Handle) :
    ((get_entity_and_status s h).2 ≠ entity_status.OK →
      destroy_entity s h = ⟨Except.error error_code.BAD_ENTITY, s, h, []⟩) ∧
    ((get_entity_and_status s h).2 = entity_status.OK →
      (destroy_entity s h).res = Except.ok () ∧
      (s.hasEventManager = true →
        (destroy_entity s h).evs =
          Event.entityDestroyed h.id ::
          ((((List.range s.nComp).filter fun k => decide (k ∈ h.mask)).map
            fun k => Event.componentRemoved h.id k
              (((findByKey Prod.fst (getStore s k) h.id).getD (0, 0)).2)) ++
          (((List.range s.nTag).filter
              fun t => decide (s.nComp + t ∈ h.mask)).map
            fun t => Event.tagRemoved h.id (s.nComp + t)))) ∧
      (s.hasEventManager = false → (destroy_entity s h).evs = []) ∧
      findByKey EntityRec.id (destroy_entity s h).st.entities h.id = none ∧
      (∀ k, k < s.nComp →
        findByKey Prod.fst (getStore (destroy_entity s h).st k) h.id = none) ∧
      (∀ g ∈ (destroy_entity s h).st.groupings, ∀ rc ∈ g.2.2,
        rc.id ≠ h.id)) := by
  have hInv := Reachable_Inv hr
  constructor
  · intro hst
    have hA := assert_entity_of_status s h (status_not_ok hst)
    rw [destroy_entity, hA]
  · intro hok
    rcases assert_entity_of_ok hok with ⟨hA, hf⟩
    have hmem : (⟨h.id, h.mask⟩ : EntityRec) ∈ s.entities :=
      (findByKey_eq_some _ _ _ hf).1
    have hst : (destroy_entity s h).st =
        { s with
          components := (List.range s.components.length).map fun k =>
            if k ∈ h.mask then eraseByKey Prod.fst (getStore s k) h.id
            else getStore s k
          entities := eraseByKey EntityRec.id s.entities h.id
          groupings := s.groupings.map fun g =>
            (g.1, g.2.1, destroyG h.mask h.id g) } := by
      simp only [destroy_entity, hA]
      congr 1
      refine List.map_congr_left fun g _ => ?_
      rw [destroyG]
      split_ifs <;> rfl
    have hevs : (destroy_entity s h).evs =
        (if s.hasEventManager then [Event.entityDestroyed h.id] else []) ++
        ((List.range s.components.length).filterMap fun k =>
          if k ∈ h.mask ∧ s.hasEventManager then
            some (Event.componentRemoved h.id k
              (((findByKey Prod.fst (getStore s k) h.id).getD (0, 0)).2))
          else none) ++
        ((List.range s.nTag).filterMap fun t =>
          if s.nComp + t ∈ h.mask ∧ s.hasEventManager then
            some (Event.tagRemoved h.id (s.nComp + t))
          else none) := by
      simp only [destroy_entity, hA]
    refine ⟨by simp only [destroy_entity, hA], ?_, ?_, ?_, ?_, ?_⟩
    · intro hEM
      rw [hevs, hEM]
      simp only [and_true, if_true, hInv.compLen]
      rw [filterMap_ite (fun k => k ∈ h.mask), filterMap_ite
        (fun t => s.nComp + t ∈ h.mask)]
      simp
    · intro hEM
      rw [hevs, hEM]
      simp
    · rw [hst]
      show findByKey EntityRec.id
        (eraseByKey EntityRec.id s.entities h.id) h.id = none
      rw [findByKey_eq_none]
      intro x hx hxi
      exact not_mem_eraseByKey hInv.entSorted hxi hx
    · intro k hk
      rw [hst]
      have hklen : k < s.components.length := by
        rw [hInv.compLen]
        exact hk
      have hgs : getStore
          { s with
            components := (List.range s.components.length).map fun k =>
              if k ∈ h.mask then eraseByKey Prod.fst (getStore s k) h.id
              else getStore s k
            entities := eraseByKey EntityRec.id s.entities h.id
            groupings := s.groupings.map fun g =>
              (g.1, g.2.1, destroyG h.mask h.id g) } k =
          if k < s.components.length then
            (if k ∈ h.mask then eraseByKey Prod.fst (getStore s k) h.id
             else getStore s k)
          else [] := getD_range_map _ _ k
      rw [hgs, if_pos hklen]
      by_cases hkm : k ∈ h.mask
      · rw [if_pos hkm, findByKey_eq_none]
        intro x hx hxi
        exact not_mem_eraseByKey (hInv.storeSorted k) hxi hx
      · rw [if_neg hkm, findByKey_eq_none]
        intro x hx hxi
        rcases (hInv.maskStore k hk h.id).mpr ⟨x, hx, hxi⟩ with
          ⟨r0, hr0, hr0i, hr0k⟩
        have := mem_unique_of_sorted hInv.entSorted hmem hr0 hr0i
        subst this
        exact hkm hr0k
    · rw [hst]
      intro g2 hg2 rc hrc
      rcases grp_map_mem _ hg2 with ⟨g, hg, rfl⟩
      have hgok := hInv.grpOk g hg
      intro hrci
      rw [destroyG] at hrc
      by_cases hcond : g.2.1 ∩ h.mask = g.2.1
      · rw [if_pos hcond] at hrc
        exact not_mem_eraseByKey hgok.sorted hrci hrc
      · rw [if_neg hcond] at hrc
        rcases hgok.mirror rc hrc with ⟨hrcE, hrcm⟩
        have := mem_unique_of_sorted hInv.entSorted hmem hrcE hrci
        subst this
        exact hcond (Finset.inter_eq_left.mpr hrcm)

theorem destroy_entity_spec_witness :
    (destroy_entity (set_event_manager wState1) wHandle).evs =
      Event.entityDestroyed wHandle.id ::
      ((((List.range (set_event_manager wState1).nComp).filter
          fun k => decide (k ∈ wHandle.mask)).map
        fun k => Event.componentRemoved wHandle.id k
          (((findByKey Prod.fst (getStore (set_event_manager wState1) k)
            wHandle.id).getD (0, 0)).2)) ++
      (((List.range (set_event_manager wState1).nTag).filter
          fun t => decide ((set_event_manager wState1).nComp + t ∈
            wHandle.mask)).map
        fun t => Event.tagRemoved wHandle.id
          ((set_event_manager wState1).nComp + t))) :=
  (((destroy_entity_spec
    ⟨2, 1, Relation.ReflTransGen.tail
      (Relation.ReflTransGen.single (Step.create wState0 [] [(0, 5), (1, 6)]))
      (Step.setEM wState1)⟩
    wHandle).2 (by decide)).2.1 (by decide))

theorem noop_idempotence_witness :
    remove_component (remove_component wState1 wHandle 1).st
        (remove_component wState1 wHandle 1).hnd 1 =
      ⟨Except.ok false, (remove_component wState1 wHandle 1).st,
        (remove_component wState1 wHandle 1).hnd, []⟩ :=
  (noop_idempotence wReach1 wHandle 1 2 true (by decide) (by decide)
    (by decide) (by decide)).2.2.1

/-! ### The two iterator advancement strategies agree -/

theorem store_getD_eq_get (st : Store) {pos : Nat} (hp : pos < st.length) :
    st.getD pos (0, 0) = st.get ⟨pos, hp⟩ := by
  rw [List.getD_eq_getElem?_getD, List.getElem?_eq_getElem hp]
  rfl

theorem sorted_key_lt {st : Store} (hs : KeySorted Prod.fst st) {i j : Nat}
    (hij : i < j) (hj : j < st.length) :
    (st.getD i (0, 0)).1 < (st.getD j (0, 0)).1 := by
  have hi : i < st.length := lt_trans hij hj
  rw [store_getD_eq_get st hi, store_getD_eq_get st hj]
  exact List.pairwise_iff_getElem.mp hs i j hi hj hij

theorem sorted_key_le {st : Store} (hs : KeySorted Prod.fst st) {i j : Nat}
    (hij : i ≤ j) (hj : j < st.length) :
    (st.getD i (0, 0)).1 ≤ (st.getD j (0, 0)).1 := by
  rcases Nat.lt_or_ge i j with hlt | hge
  · exact le_of_lt (sorted_key_lt hs hlt hj)
  · have : i = j := by omega
    rw [this]

/-- Characterization of the linear scan: it stops at the first position at
or after `pos` whose key is not less than the target (or at the end). -/
theorem linAdv_spec_aux (st : Store) (t : Nat) :
    ∀ n pos, st.length - pos = n → pos ≤ st.length →
    pos ≤ linAdv st t pos ∧ linAdv st t pos ≤ st.length ∧
    (∀ i, pos ≤ i → i < linAdv st t pos → (st.getD i (0, 0)).1 < t) ∧
    (linAdv st t pos < st.length →
      t ≤ (st.getD (linAdv st t pos) (0, 0)).1) := by
  intro n
  induction n using Nat.strong_induction_on with
  | _ n ih =>
    intro pos hfuel hpos
    rw [linAdv]
    by_cases hp : pos < st.length
    · rw [dif_pos hp]
      by_cases hkey : (st.get ⟨pos, hp⟩).1 < t
      · rw [if_pos hkey]
        have hrec := ih (st.length - (pos + 1)) (by omega) (pos + 1) rfl
          (by omega)
        clear hfuel
        refine ⟨by omega, hrec.2.1, ?_, hrec.2.2.2⟩
        intro i hi1 hi2
        rcases Nat.lt_or_ge i (pos + 1) with hi | hi
        · have : i = pos := by omega
          subst this
          rw [store_getD_eq_get st hp]
          exact hkey
        · exact hrec.2.2.1 i hi hi2
      · rw [if_neg hkey]
        refine ⟨le_refl _, le_of_lt hp, ?_, ?_⟩
        · intro i hi1 hi2
          omega
        · intro _
          rw [store_getD_eq_get st hp]
          omega
    · rw [dif_neg hp]
      have : pos = st.length := by omega
      refine ⟨le_refl _, hpos, ?_, ?_⟩
      · intro i hi1 hi2
        omega
      · intro hcon
        omega

/-- Characterization of the linear scan, stated without the fuel
argument. -/
theorem linAdv_spec (st : Store) (t : Nat) (pos : Nat)
    (hpos : pos ≤ st.length) :
    pos ≤ linAdv st t pos ∧ linAdv st t pos ≤ st.length ∧
    (∀ i, pos ≤ i → i < linAdv st t pos → (st.getD i (0, 0)).1 < t) ∧
    (linAdv st t pos < st.length →
      t ≤ (st.getD (linAdv st t pos) (0, 0)).1) :=
  linAdv_spec_aux st t (st.length - pos) pos rfl hpos

/-- Characterization of `std::lower_bound` on the sorted range
`[pos, pos + count)`. -/
theorem lbAdv_spec {st : Store} (hs : KeySorted Prod.fst st) (t : Nat) :
    ∀ count pos, pos + count ≤ st.length →
    pos ≤ lbAdv st t pos count ∧ lbAdv st t pos count ≤ pos + count ∧
    (∀ i, pos ≤ i → i < lbAdv st t pos count → (st.getD i (0, 0)).1 < t) ∧
    (∀ i, lbAdv st t pos count ≤ i → i < pos + count →
      t ≤ (st.getD i (0, 0)).1) := by
  intro count
  induction count using Nat.strong_induction_on with
  | _ count ih =>
    intro pos hlen
    rw [lbAdv]
    by_cases hz : count = 0
    · rw [if_pos hz]
      subst hz
      refine ⟨le_refl _, by omega, ?_, ?_⟩ <;> intro i hi1 hi2 <;> omega
    · rw [if_neg hz]
      have hstep : count / 2 < count := by omega
      have hmidlen : pos + count / 2 < st.length := by omega
      by_cases hkey : (st.getD (pos + count / 2) (0, 0)).1 < t
      · rw [if_pos hkey]
        have hrec := ih (count - count / 2 - 1) (by omega)
          (pos + count / 2 + 1) (by omega)
        refine ⟨by omega, by omega, ?_, ?_⟩
        · intro i hi1 hi2
          rcases Nat.lt_or_ge i (pos + count / 2 + 1) with hi | hi
          · exact lt_of_le_of_lt
              (sorted_key_le hs (by omega) hmidlen) hkey
          · exact hrec.2.2.1 i hi hi2
        · intro i hi1 hi2
          exact hrec.2.2.2 i hi1 (by omega)
      · rw [if_neg hkey]
        have hrec := ih (count / 2) (by omega) pos (by omega)
        refine ⟨hrec.1, by omega, hrec.2.2.1, ?_⟩
        intro i hi1 hi2
        rcases Nat.lt_or_ge i (pos + count / 2) with hi | hi
        · exact hrec.2.2.2 i hi1 hi
        · calc t ≤ (st.getD (pos + count / 2) (0, 0)).1 := by omega
            _ ≤ (st.getD i (0, 0)).1 := by
              refine sorted_key_le hs hi (by omega)

/-- The two advancement strategies of `increment_iter` land on the same
position on a sorted store: linear scan and `std::lower_bound` both stop at
the first entry with key at or above the target. -/
theorem advance_eq {st : Store} (hs : KeySorted Prod.fst st) (t : Nat)
    {pos : Nat} (hpos : pos ≤ st.length) (b1 b2 : Bool) :
    advance st b1 t pos = advance st b2 t pos := by
  suffices h : lbAdv st t pos (st.length - pos) = linAdv st t pos by
    rw [advance, advance]
    cases b1 <;> cases b2 <;> simp [h]
  have hlin := linAdv_spec st t pos hpos
  have hlb := lbAdv_spec hs t (st.length - pos) pos (by omega)
  by_contra hne
  rcases Nat.lt_trichotomy (lbAdv st t pos (st.length - pos))
    (linAdv st t pos) with hlt | heq | hgt
  · have h1 := hlin.2.2.1 _ hlb.1 hlt
    have h2 := hlb.2.2.2 _ (le_refl _) (by omega)
    omega
  · exact hne heq
  · have h1 := hlb.2.2.1 _ hlin.1 hgt
    have h2 := hlin.2.2.2 (by omega)
    omega

/-- The component value `for_each` hands to the callback: the value stored
for identity `i` in kind `k`'s store. -/
def compValue (s : State) (k i : Nat) : Nat :=
  ((findByKey Prod.fst (getStore s k) i).getD (0, 0)).2

/-- When the target identity is present in a sorted store and every entry
before the iterator's position has a smaller key, either advancement
strategy stops exactly on the target's entry. -/
theorem advance_finds {st : Store} (hs : KeySorted Prod.fst st) {i v : Nat}
    (hfind : findByKey Prod.fst st i = some (i, v)) {pos : Nat}
    (hpos : pos ≤ st.length)
    (hbefore : ∀ j, j < pos → (st.getD j (0, 0)).1 < i) (b : Bool) :
    advance st b i pos < st.length ∧
    st.getD (advance st b i pos) (0, 0) = (i, v) ∧
    (∀ j, j < advance st b i pos → (st.getD j (0, 0)).1 < i) := by
  have hadv : advance st b i pos = linAdv st i pos := by
    have := advance_eq hs i hpos b true
    rw [this]
    rw [advance, if_pos rfl]
  rw [hadv]
  have hlin := linAdv_spec st i pos hpos
  have hmem : (i, v) ∈ st := (findByKey_eq_some _ _ _ hfind).1
  rcases List.getElem_of_mem hmem with ⟨idx, hidx, hgetidx⟩
  have hgetDidx : st.getD idx (0, 0) = (i, v) := by
    rw [List.getD_eq_getElem?_getD, List.getElem?_eq_getElem hidx, hgetidx]
    rfl
  have hidxpos : pos ≤ idx := by
    by_contra hcon
    have := hbefore idx (by omega)
    rw [hgetDidx] at this
    exact absurd this (by omega)
  have hidxr : linAdv st i pos ≤ idx := by
    by_contra hcon
    have := hlin.2.2.1 idx hidxpos (by omega)
    rw [hgetDidx] at this
    exact absurd this (by omega)
  have hrlen : linAdv st i pos < st.length := by omega
  have hkeyr : (st.getD (linAdv st i pos) (0, 0)).1 = i := by
    have h1 := hlin.2.2.2 hrlen
    have h2 := sorted_key_le hs hidxr hidx
    rw [hgetDidx] at h2
    omega
  have hreq : linAdv st i pos = idx := by
    by_contra hcon
    have : linAdv st i pos < idx := by omega
    have := sorted_key_lt hs this hidx
    rw [hgetDidx, hkeyr] at this
    exact absurd this (by omega)
  refine ⟨hrlen, by rw [hreq, hgetDidx], ?_⟩
  intro j hj
  rcases Nat.lt_or_ge j pos with hjp | hjp
  · exact hbefore j hjp
  · exact hlin.2.2.1 j hjp hj

/-- Containment facts about the chosen candidate container: its members
are live records, and an encompassing container only holds entities
matching the full query key. -/
theorem gsc_props {s : State} (hInv : Inv s) {kinds : List Nat}
    (hval : ∀ k ∈ kinds, k < s.nComp + s.nTag) :
    (∀ r ∈ (get_smallest_container s kinds).1, r ∈ s.entities) ∧
    ((get_smallest_container s kinds).2 = true →
      ∀ r ∈ (get_smallest_container s kinds).1, make_key kinds ⊆ r.mask) := by
  match kinds with
  | [] =>
    refine ⟨fun r hr => hr, fun _ r hr => ?_⟩
    show ([] : List ℕ).toFinset ⊆ r.mask
    simp
  | [k] =>
    rcases hInv.grpImplicit k (hval k (List.mem_cons_self _ _)) with ⟨gc, hgmem⟩
    have hf : findByKey Prod.fst s.groupings k = some (k, {k}, gc) :=
      findByKey_of_mem hInv.grpSorted hgmem rfl
    have hco : get_smallest_container s [k] = (gc, true) := by
      rw [get_smallest_container, hf]
    rw [hco]
    have hgok := hInv.grpOk _ hgmem
    refine ⟨fun r hr => (hgok.mirror r hr).1, fun _ r hr => ?_⟩
    have hkm := (hgok.mirror r hr).2
    have : make_key [k] = ({k} : Finset ℕ) := by simp [make_key]
    rw [this]
    exact hkm
  | k1 :: k2 :: rest =>
    cases hm : min_element (smaller_candidate (make_key (k1 :: k2 :: rest)))
        s.groupings with
    | none =>
      have hco : get_smallest_container s (k1 :: k2 :: rest) =
          ([], false) := by
        simp only [get_smallest_container]
        rw [hm]
      rw [hco]
      exact ⟨fun r hr => absurd hr (by simp), fun hcon => by cases hcon⟩
    | some g =>
      have hgmem := min_element_mem hm
      have hgok := hInv.grpOk g hgmem
      have hco : get_smallest_container s (k1 :: k2 :: rest) =
          (g.2.2, decide (g.2.1 = make_key (k1 :: k2 :: rest))) := by
        simp only [get_smallest_container]
        rw [hm]
      rw [hco]
      refine ⟨fun r hr => (hgok.mirror r hr).1, fun henc r hr => ?_⟩
      have : g.2.1 = make_key (k1 :: k2 :: rest) := by simpa using henc
      rw [← this]
      exact (hgok.mirror r hr).2

theorem get_entities_eq_filter {s : State} (hInv : Inv s) {kinds : List Nat}
    (hval : ∀ k ∈ kinds, k < s.nComp + s.nTag) :
    get_entities s kinds =
      s.entities.filter fun r => decide (make_key kinds ⊆ r.mask) := by
  refine @eq_of_sorted_mem_iff EntityRec EntityRec.id _ _
    (get_entities_sorted hInv kinds)
    (List.Pairwise.sublist (List.filter_sublist _) hInv.entSorted)
    fun r => ?_
  rw [get_entities_mem hInv hval, List.mem_filter, decide_eq_true_eq]

/-- One pass of the candidate loop: under the container and iterator
invariants, the loop enumerates exactly the surviving candidates with the
stored values of each queried kind, independently of each iterator's
advancement strategy. -/
theorem for_each_loop_spec {s : State} (hInv : Inv s) (key : Finset ℕ)
    (enc : Bool) :
    ∀ (cand : List EntityRec) (iters : List IterData),
    KeySorted EntityRec.id cand →
    (∀ r ∈ cand, r ∈ s.entities) →
    (enc = true → ∀ r ∈ cand, key ⊆ r.mask) →
    (∀ it ∈ iters, it.kind ∈ key ∧ it.kind < s.nComp) →
    (∀ it ∈ iters, it.pos ≤ (getStore s it.kind).length ∧
      ∀ j, j < it.pos → ∀ r ∈ cand,
        ((getStore s it.kind).getD j (0, 0)).1 < r.id) →
    for_each_loop s key enc iters cand =
      (if enc = true then cand
       else cand.filter fun r => decide (r.mask ∩ key = key)).map
        fun r => (r, iters.map fun it => compValue s it.kind r.id) := by
  intro cand
  induction cand with
  | nil =>
    intro iters _ _ _ _ _
    rw [for_each_loop]
    cases enc <;> simp
  | cons ent rest ih =>
    intro iters hsorted hlive henc hiters hpos
    rcases List.pairwise_cons.mp hsorted with ⟨hhead, hrest⟩
    rw [for_each_loop]
    by_cases hskip : ¬(enc = true) ∧ ¬(ent.mask ∩ key = key)
    · rw [if_pos hskip]
      have hencv : enc = false := by
        rcases enc with _ | _
        · rfl
        · exact absurd rfl hskip.1
      rw [ih iters hrest (fun r hr => hlive r (List.mem_cons_of_mem _ hr))
        (fun hcon => absurd hcon hskip.1) hiters
        (fun it hit => ⟨(hpos it hit).1,
          fun j hj r hr => (hpos it hit).2 j hj r (List.mem_cons_of_mem _ hr)⟩)]
      rw [hencv]
      simp only [Bool.false_eq_true, if_false, List.filter_cons]
      rw [if_neg (by simpa using hskip.2)]
    · rw [if_neg hskip]
      show (ent, (iters.map fun it =>
          (⟨it.kind, advance (getStore s it.kind) it.useLinear ent.id it.pos,
            it.useLinear⟩ : IterData)).map
            fun it => ((getStore s it.kind).getD it.pos (0, 0)).2) ::
          for_each_loop s key enc (iters.map fun it =>
            ⟨it.kind, advance (getStore s it.kind) it.useLinear ent.id it.pos,
              it.useLinear⟩) rest = _
      have hmatch : key ⊆ ent.mask := by
        by_cases henc2 : enc = true
        · exact henc henc2 ent (List.mem_cons_self _ _)
        · rcases not_and_or.mp hskip with hcon | hcon
          · exact absurd henc2 (by simpa using hcon)
          · exact Finset.inter_eq_right.mp (not_not.mp hcon)
      have hentE : ent ∈ s.entities := hlive ent (List.mem_cons_self _ _)
      -- for each iterator, the advance lands on the candidate's entry
      have hadv : ∀ it ∈ iters,
          (getStore s it.kind).getD
            (advance (getStore s it.kind) it.useLinear ent.id it.pos) (0, 0) =
            (ent.id, compValue s it.kind ent.id) ∧
          advance (getStore s it.kind) it.useLinear ent.id it.pos ≤
            (getStore s it.kind).length ∧
          (∀ j, j < advance (getStore s it.kind) it.useLinear ent.id it.pos →
            ((getStore s it.kind).getD j (0, 0)).1 < ent.id) := by
        intro it hit
        rcases hiters it hit with ⟨hkem, hklt⟩
        have hbit : it.kind ∈ ent.mask := hmatch hkem
        rcases (hInv.maskStore it.kind hklt ent.id).mp
          ⟨ent, hentE, rfl, hbit⟩ with ⟨p, hp, hpi⟩
        have hfind : findByKey Prod.fst (getStore s it.kind) ent.id = some p :=
          findByKey_of_mem (hInv.storeSorted it.kind) hp hpi
        have hpv : p = (ent.id, p.2) := by
          cases p
          simp_all
        have hfind2 : findByKey Prod.fst (getStore s it.kind) ent.id =
            some (ent.id, p.2) := by rwa [← hpv]
        have hcv : compValue s it.kind ent.id = p.2 := by
          rw [compValue, hfind2]
          rfl
        rcases advance_finds (hInv.storeSorted it.kind) hfind2
          (hpos it hit).1
          (fun j hj => (hpos it hit).2 j hj ent (List.mem_cons_self _ _))
          it.useLinear with ⟨ha1, ha2, ha3⟩
        rw [hcv]
        exact ⟨by rw [ha2, hpv], le_of_lt ha1, ha3⟩
      have hih := ih (iters.map fun it =>
          ⟨it.kind, advance (getStore s it.kind) it.useLinear ent.id it.pos,
            it.useLinear⟩)
        hrest (fun r hr => hlive r (List.mem_cons_of_mem _ hr))
        (fun he r hr => henc he r (List.mem_cons_of_mem _ hr))
        (by
          intro it2 hit2
          rcases List.mem_map.mp hit2 with ⟨it, hit, rfl⟩
          exact hiters it hit)
        (by
          intro it2 hit2
          rcases List.mem_map.mp hit2 with ⟨it, hit, rfl⟩
          dsimp only
          refine ⟨(hadv it hit).2.1, ?_⟩
          intro j hj r hr
          have h1 := (hadv it hit).2.2 j hj
          have h2 := hhead r hr
          omega)
      rw [hih]
      have hheadout : (iters.map fun it =>
          (⟨it.kind, advance (getStore s it.kind) it.useLinear ent.id it.pos,
            it.useLinear⟩ : IterData)).map
            (fun it => ((getStore s it.kind).getD it.pos (0, 0)).2) =
          iters.map fun it => compValue s it.kind ent.id := by
        rw [List.map_map]
        refine List.map_congr_left fun it hit => ?_
        show ((getStore s it.kind).getD
          (advance (getStore s it.kind) it.useLinear ent.id it.pos) (0, 0)).2 =
          compValue s it.kind ent.id
        rw [(hadv it hit).1]
      rw [hheadout]
      have htail : List.map
          (fun r => (r, List.map (fun it => compValue s it.kind r.id)
            (List.map (fun it =>
              (⟨it.kind,
                advance (getStore s it.kind) it.useLinear ent.id it.pos,
                it.useLinear⟩ : IterData)) iters)))
          (if enc = true then rest
           else List.filter (fun r => decide (r.mask ∩ key = key)) rest) =
          List.map (fun r => (r, List.map
            (fun it => compValue s it.kind r.id) iters))
          (if enc = true then rest
           else List.filter (fun r => decide (r.mask ∩ key = key)) rest) := by
        refine List.map_congr_left fun r _ => ?_
        rw [List.map_map]
        rfl
      rw [htail]
      by_cases henc2 : enc = true
      · rw [if_pos henc2, if_pos henc2, List.map_cons]
      · rw [if_neg henc2, if_neg henc2, List.filter_cons,
          if_pos (by simpa using Finset.inter_eq_right.mpr hmatch),
          List.map_cons]

/-- C4: in every reachable registry state, for every valid duplicate-free
query, `for_each` invokes its callback exactly once per live entity whose
mask covers the query mask — in identity order, passing the value stored
for the entity in each queried component kind — and this holds for EVERY
per-kind assignment of the two advancement strategies (`for_each_with σ`),
in particular for the ratio-against-`maxLinearSearchDistance` choice
`detail::make_iters` makes: linear scan and lower-bound binary search
advance each iterator to the same store entry, so all strategy choices
produce the identical invocation sequence. -/
theorem for_each_spec {s : State} (hr : Reachable s) {kinds : List Nat}
    (hnd : kinds.Nodup) (hval : ∀ k ∈ kinds, k < s.nComp + s.nTag) :
    (∀ σ : Nat → Bool, for_each_with σ s kinds =
      (s.entities.filter fun r => decide (make_key kinds ⊆ r.mask)).map
        fun r => (r, (kinds.filter fun k => decide (k < s.nComp)).map
          fun k => compValue s k r.id)) ∧
    for_each s kinds =
      (s.entities.filter fun r => decide (make_key kinds ⊆ r.mask)).map
        fun r => (r, (kinds.filter fun k => decide (k < s.nComp)).map
          fun k => compValue s k r.id) := by
  have hInv := Reachable_Inv hr
  have main : ∀ σ : Nat → Bool, for_each_with σ s kinds =
      (s.entities.filter fun r => decide (make_key kinds ⊆ r.mask)).map
        fun r => (r, (kinds.filter fun k => decide (k < s.nComp)).map
          fun k => compValue s k r.id) := by
    intro σ
    rw [for_each_with]
    by_cases hlen : (get_smallest_container s kinds).1.length = 0
    · rw [if_pos hlen]
      have hnil : (get_smallest_container s kinds).1 = [] :=
        List.length_eq_zero.mp hlen
      have hge : get_entities s kinds = [] := by
        rw [get_entities, hnil]
        cases (get_smallest_container s kinds).2 <;> simp
      have hfe := get_entities_eq_filter hInv hval
      rw [hge] at hfe
      rw [← hfe]
      rfl
    · rw [if_neg hlen]
      have hsorted : KeySorted EntityRec.id
          (get_smallest_container s kinds).1 := by
        rcases get_smallest_container_cases s kinds with hc | ⟨g, hg, hc⟩ | hc <;>
          rw [hc]
        · exact hInv.entSorted
        · exact (hInv.grpOk g hg).sorted
        · exact List.Pairwise.nil
      have hloop := for_each_loop_spec hInv (make_key kinds)
        (get_smallest_container s kinds).2
        (get_smallest_container s kinds).1
        (make_iters_with σ (kinds.filter fun k => decide (k < s.nComp)))
        hsorted
        (gsc_props hInv hval).1
        (fun he r hr => (gsc_props hInv hval).2 he r hr)
        (by
          intro it hit
          rcases List.mem_map.mp hit with ⟨k, hk, rfl⟩
          rcases List.mem_filter.mp hk with ⟨hkk, hklt⟩
          exact ⟨List.mem_toFinset.mpr hkk, by simpa using hklt⟩)
        (by
          intro it hit
          rcases List.mem_map.mp hit with ⟨k, hk, rfl⟩
          dsimp only
          exact ⟨Nat.zero_le _, fun j hj r hr => absurd hj (by omega)⟩)
      rw [hloop]
      have hcands : (if (get_smallest_container s kinds).2 = true then
          (get_smallest_container s kinds).1
        else (get_smallest_container s kinds).1.filter
          fun r => decide (r.mask ∩ make_key kinds = make_key kinds)) =
          get_entities s kinds := rfl
      rw [hcands, get_entities_eq_filter hInv hval]
      refine List.map_congr_left fun r _ => ?_
      show (r, (make_iters_with σ
        (kinds.filter fun k => decide (k < s.nComp))).map
          fun it => compValue s it.kind r.id) = _
      rw [make_iters_with, List.map_map]
      rfl
  exact ⟨main, main _⟩

theorem for_each_spec_witness :
    for_each wState1 [0, 1] =
      (wState1.entities.filter fun r => decide (make_key [0, 1] ⊆ r.mask)).map
        fun r => (r, ([0, 1].filter fun k => decide (k < wState1.nComp)).map
          fun k => compValue wState1 k r.id) :=
  (for_each_spec wReach1 (by decide) (by decide)).2

end ECS
